import Mathlib

/-
Verification of the dycg autodiff core against its specification.

The development shallowly embeds the Rust sources:
  * src/error.rs, src/shape.rs, src/buffer.rs, src/array.rs,
    src/hardware/cpu.rs — the value layer (Error, Shape, Arr, CpuHardware);
  * src/graph.rs — the older graph generation (Graph0: NodeAddress,
    multi-output steps, the push-down-automaton evaluator);
  * src/node.rs together with src/operator/{add,sub,mul,div,neg,fill,
    constant}.rs — the newer generation (Node handles, per-operator shape and
    hardware inference, gradient builders, the grad engine).  The Graph type
    and Operator trait that this generation compiles against are not part of
    the source snapshot; the few definitions taken from the specification
    text instead of from source code carry a doc comment starting with
    "Modelled from the spec:".

Numbers: the kernels compute on f32.  Every scenario verified below only
performs additions, subtractions, multiplications and divisions of small
dyadic rationals, all of which are exactly representable and exactly computed
in IEEE binary32, so the model uses Rat and the results transfer verbatim.
Hardware instances are compared by pointer in Rust; the model gives each
hardware an id of type Nat and compares ids.
-/

/-- Error kinds of the crate (src/error.rs).  Every Rust variant carries a
formatted human-readable message; the messages are presentation-only and are
elided in the model, keeping just the kind. -/
inductive Error where
  | invalidGraph
  | invalidHardware
  | invalidNode
  | invalidLength
  | invalidShape
  | outOfRange
  | notSupported
deriving DecidableEq, Repr

/-- Shape (src/shape.rs).  The source stores a fixed-capacity buffer of
MAX_NUM_DIMENSIONS = 8 slots plus a num_dimensions counter; only the first
num_dimensions slots are observable, so the model stores exactly those as a
list.  The cached num_elements field is recomputed on demand here; it is a
pure function of the dimensions. -/
structure Shape where
  dimensions : List Nat
deriving DecidableEq, Repr

/-- Shape::num_dimensions. -/
def Shape.num_dimensions (s : Shape) : Nat := s.dimensions.length

/-- Shape::num_elements: the product of all dimensions, 1 for a scalar
(computed by a left fold exactly as the constructor of the source does). -/
def Shape.num_elements (s : Shape) : Nat := s.dimensions.foldl (· * ·) 1

/-- Shape::check_is_scalar: Ok iff num_dimensions = 0, InvalidShape otherwise. -/
def Shape.check_is_scalar (s : Shape) : Except Error Unit :=
  if s.num_dimensions = 0 then .ok () else .error .invalidShape

/-- Shape::check_index: Ok iff the index addresses a real dimension. -/
def Shape.check_index (s : Shape) (index : Nat) : Except Error Unit :=
  if index < s.num_dimensions then .ok () else .error .outOfRange

/-- Shape::elementwise: equality check; returns a copy of self on success and
InvalidShape on mismatch.  No broadcasting. -/
def Shape.elementwise (s other : Shape) : Except Error Shape :=
  if s = other then .ok s else .error .invalidShape

/-- Shape::memory_size::<f32>: num_elements * size_of::<f32>. -/
def Shape.memory_size_f32 (s : Shape) : Nat := s.num_elements * 4

/-- Array (src/array.rs), renamed Arr because Lean has a builtin Array.  The
source pairs a Shape with a Buffer (src/buffer.rs): device memory of
shape.memory_size::<f32>() bytes owned on one hardware.  The model stores the
f32 contents of the buffer directly as rationals together with the id of the
owning hardware (Buffer colocation is hardware pointer equality in Rust). -/
structure Arr where
  shape : Shape
  hardware : Nat
  values : List Rat
deriving DecidableEq, Repr

/-- Buffer::check_colocated (src/buffer.rs): Ok iff both buffers live on the
same hardware instance, InvalidHardware otherwise. -/
def Arr.check_colocated (a other : Arr) : Except Error Unit :=
  if a.hardware = other.hardware then .ok () else .error .invalidHardware

/-- Array::set_values_f32: InvalidLength unless the number of supplied values
equals shape.num_elements; on success the buffer holds exactly the supplied
values (row-major). -/
def Arr.set_values_f32 (a : Arr) (vs : List Rat) : Except Error Arr :=
  if vs.length ≠ a.shape.num_elements then .error .invalidLength
  else .ok ⟨a.shape, a.hardware, vs⟩

/-- Array::scalar_f32: a zero-rank array holding one value (raw allocation of
one f32 slot followed by set_scalar_f32, which cannot fail on that shape). -/
def Arr.scalar_f32 (hw : Nat) (v : Rat) : Arr := ⟨⟨[]⟩, hw, [v]⟩

/-- Array::constant_f32: an uninitialised raw array of the requested shape
followed by set_values_f32.  The uninitialised contents (zeros below as a mere
placeholder) are either fully overwritten or the array is discarded with the
error, so the placeholder is never observable. -/
def Arr.constant_f32 (hw : Nat) (shape : Shape) (vs : List Rat) :
    Except Error Arr :=
  Arr.set_values_f32 ⟨shape, hw, List.replicate shape.num_elements 0⟩ vs

/-- Array::fill_f32: a raw array whose buffer the hardware fill_f32 kernel
initialises to num_elements copies of the value. -/
def Arr.fill_f32 (hw : Nat) (shape : Shape) (v : Rat) : Arr :=
  ⟨shape, hw, List.replicate shape.num_elements v⟩

/-- Array::get_scalar_f32: check_is_scalar then read the single f32 slot. -/
def Arr.get_scalar_f32 (a : Arr) : Except Error Rat := do
  a.shape.check_is_scalar
  .ok (a.values.getD 0 0)

/-- Array::elementwise_neg_f32: always succeeds; fresh colocated array of the
same shape, the hardware kernel negates each of the num_elements slots. -/
def Arr.elementwise_neg_f32 (a : Arr) : Arr :=
  ⟨a.shape, a.hardware, a.values.map (fun x => -x)⟩

/-- Array::elementwise_add_f32: colocation check, then Shape::elementwise,
then a fresh colocated output written by the hardware add kernel. -/
def Arr.elementwise_add_f32 (a other : Arr) : Except Error Arr := do
  a.check_colocated other
  let sh ← a.shape.elementwise other.shape
  .ok ⟨sh, a.hardware, List.zipWith (· + ·) a.values other.values⟩

/-- Array::elementwise_sub_f32 (same template as add). -/
def Arr.elementwise_sub_f32 (a other : Arr) : Except Error Arr := do
  a.check_colocated other
  let sh ← a.shape.elementwise other.shape
  .ok ⟨sh, a.hardware, List.zipWith (· - ·) a.values other.values⟩

/-- Array::elementwise_mul_f32 (same template as add). -/
def Arr.elementwise_mul_f32 (a other : Arr) : Except Error Arr := do
  a.check_colocated other
  let sh ← a.shape.elementwise other.shape
  .ok ⟨sh, a.hardware, List.zipWith (· * ·) a.values other.values⟩

/-- Array::elementwise_div_f32 (same template as add). -/
def Arr.elementwise_div_f32 (a other : Arr) : Except Error Arr := do
  a.check_colocated other
  let sh ← a.shape.elementwise other.shape
  .ok ⟨sh, a.hardware, List.zipWith (· / ·) a.values other.values⟩

/-- The four elementwise binary operations of src/array.rs, for statements
quantifying over all of them. -/
def elementwise_binary_f32 : List (Arr → Arr → Except Error Arr) :=
  [Arr.elementwise_add_f32, Arr.elementwise_sub_f32,
   Arr.elementwise_mul_f32, Arr.elementwise_div_f32]

/-- CpuHardware (src/hardware/cpu.rs): the registry of (handle, size) pairs
for every live nonzero-size allocation, kept for deterministic leak checks.
Handles are raw pointers in Rust, modelled as Nat. -/
structure CpuHardware where
  supplied : List (Nat × Nat)
deriving DecidableEq, Repr

/-- CpuHardware::new: empty registry. -/
def CpuHardware.new : CpuHardware := ⟨[]⟩

/-- CpuHardware::allocate_memory.  The real function obtains a fresh handle
from the global allocator; the model receives the handle as an argument.
Nonzero sizes are recorded in the registry, and the (unreachable with a sound
allocator) duplicate-insertion branch panics; zero sizes bypass the registry.
Panics are modelled as none. -/
def CpuHardware.allocate_memory (hw : CpuHardware) (handle size : Nat) :
    Option CpuHardware :=
  if 0 < size then
    if (handle, size) ∈ hw.supplied then none
    else some ⟨(handle, size) :: hw.supplied⟩
  else some hw

/-- CpuHardware::deallocate_memory: for a nonzero size the exact (handle,
size) pair must be registered, and is removed (HashSet::remove; the registry
is a set, so removal by filtering); otherwise the function panics (none).
Zero sizes bypass the registry and never panic. -/
def CpuHardware.deallocate_memory (hw : CpuHardware) (handle size : Nat) :
    Option CpuHardware :=
  if 0 < size then
    if (handle, size) ∈ hw.supplied then
      some ⟨hw.supplied.filter (fun p => decide (p ≠ (handle, size)))⟩
    else none
  else some hw

deriving instance DecidableEq for Except

/-- C8 counterexample.  The claim states that each binary elementwise
operation returns an InvalidShape error whenever the shapes differ; but the
code checks colocation first, so two arrays that differ in hardware and in
shape produce InvalidHardware, not InvalidShape. -/
theorem c8_counterexample :
    (Arr.scalar_f32 0 1).shape ≠ (Arr.mk ⟨[2]⟩ 1 [0, 0]).shape ∧
    Arr.elementwise_add_f32 (Arr.scalar_f32 0 1) (Arr.mk ⟨[2]⟩ 1 [0, 0]) =
      .error .invalidHardware ∧
    Arr.elementwise_add_f32 (Arr.scalar_f32 0 1) (Arr.mk ⟨[2]⟩ 1 [0, 0]) ≠
      .error .invalidShape := by
  decide

/-- C8 (amended): for every pair of arrays and each of the four binary
elementwise operations, two arrays on different hardware give InvalidHardware;
colocated arrays of different shapes give InvalidShape (colocation is checked
first); colocated arrays of equal shapes succeed with a fresh array of the
same shape on the same hardware. -/
theorem c8_elementwise_binary (f : Arr → Arr → Except Error Arr)
    (hf : f ∈ elementwise_binary_f32) (a b : Arr) :
    (a.hardware ≠ b.hardware → f a b = .error .invalidHardware) ∧
    (a.hardware = b.hardware → a.shape ≠ b.shape →
      f a b = .error .invalidShape) ∧
    (a.hardware = b.hardware → a.shape = b.shape →
      ∃ out, f a b = .ok out ∧ out.shape = a.shape ∧
        out.hardware = a.hardware) := by
  simp only [elementwise_binary_f32, List.mem_cons, List.not_mem_nil,
    or_false] at hf
  rcases hf with rfl | rfl | rfl | rfl
  all_goals refine ⟨fun hne => ?_, fun hhw hsh => ?_, fun hhw hsh => ?_⟩
  all_goals
    simp_all [Arr.elementwise_add_f32, Arr.elementwise_sub_f32,
      Arr.elementwise_mul_f32, Arr.elementwise_div_f32, Arr.check_colocated,
      Shape.elementwise, Except.bind, bind, pure, Except.pure]

/-- C8 witness: the amended theorem applied to the add operation on two
colocated scalar arrays. -/
theorem c8_witness :
    (Arr.elementwise_add_f32 ∈ elementwise_binary_f32) ∧
    ((Arr.scalar_f32 0 1).hardware = (Arr.scalar_f32 0 2).hardware →
      (Arr.scalar_f32 0 1).shape = (Arr.scalar_f32 0 2).shape →
      ∃ out, Arr.elementwise_add_f32 (Arr.scalar_f32 0 1)
          (Arr.scalar_f32 0 2) = .ok out ∧
        out.shape = (Arr.scalar_f32 0 1).shape ∧
        out.hardware = (Arr.scalar_f32 0 1).hardware) :=
  ⟨by simp [elementwise_binary_f32],
   (c8_elementwise_binary Arr.elementwise_add_f32 (by simp [elementwise_binary_f32])
      (Arr.scalar_f32 0 1) (Arr.scalar_f32 0 2)).2.2⟩

/-- C9 counterexample.  The claim (following the error table of spec section
7) states that constant with a values-length mismatch fails with InvalidShape;
the code fails with InvalidLength, the kind listed in spec section 4.4. -/
theorem c9_counterexample :
    Arr.constant_f32 0 ⟨[]⟩ [] = .error .invalidLength ∧
    Arr.constant_f32 0 ⟨[]⟩ [] ≠ .error .invalidShape := by
  decide

/-- C9 (amended): constructing an Array with constant(hw, shape, values)
where the length of values differs from the shape's num_elements fails with an
InvalidLength error (as listed in spec section 4.4; the section 7 table is the
inconsistent half). -/
theorem c9_constant_length_mismatch (hw : Nat) (shape : Shape)
    (vs : List Rat) (h : vs.length ≠ shape.num_elements) :
    Arr.constant_f32 hw shape vs = .error .invalidLength := by
  simp [Arr.constant_f32, Arr.set_values_f32, h]

/-- C9 witness: a scalar shape (num_elements 1) with an empty value list. -/
theorem c9_witness :
    (List.length ([] : List Rat) ≠ Shape.num_elements ⟨[]⟩) ∧
    Arr.constant_f32 0 ⟨[]⟩ [] = .error .invalidLength :=
  ⟨by decide, c9_constant_length_mismatch 0 ⟨[]⟩ [] (by decide)⟩

/-- C10: the CpuHardware allocation registry.  For a nonzero size and a pair
not currently registered: allocate_memory registers exactly that pair;
deallocate_memory on the unregistered pair panics; after a successful
deallocation, deallocating the same pair again panics (double free); and
zero-size allocations and deallocations bypass the registry and never panic. -/
theorem c10_cpu_registry (hw : CpuHardware) (handle size : Nat)
    (hs : 0 < size) (hnew : (handle, size) ∉ hw.supplied) :
    (hw.allocate_memory handle size =
      some ⟨(handle, size) :: hw.supplied⟩) ∧
    hw.deallocate_memory handle size = none ∧
    (∀ hw1 : CpuHardware, hw.deallocate_memory handle size = some hw1 → False) ∧
    (∀ hw0 hw1 hw2 : CpuHardware, hw0.deallocate_memory handle size = some hw1 →
      hw1.deallocate_memory handle size = some hw2 → False) ∧
    hw.allocate_memory handle 0 = some hw ∧
    hw.deallocate_memory handle 0 = some hw := by
  refine ⟨?_, ?_, ?_, ?_, ?_, ?_⟩
  · simp [CpuHardware.allocate_memory, hs, hnew]
  · simp [CpuHardware.deallocate_memory, hs, hnew]
  · intro hw1 h
    simp [CpuHardware.deallocate_memory, hs, hnew] at h
  · intro hw0 hw1 hw2 h1 h2
    simp only [CpuHardware.deallocate_memory, hs, if_true] at h1 h2
    by_cases hmem : (handle, size) ∈ hw0.supplied
    · simp only [hmem, if_true, Option.some.injEq] at h1
      subst h1
      have : (handle, size) ∉
          hw0.supplied.filter (fun p => decide (p ≠ (handle, size))) := by
        simp [List.mem_filter]
      simp [this] at h2
    · simp [hmem] at h1
  · rfl
  · rfl

/-- C10 witness: a fresh hardware, handle 7, size 4. -/
theorem c10_witness :
    ((0:Nat) < 4 ∧ (7, 4) ∉ CpuHardware.new.supplied) ∧
    (CpuHardware.new.allocate_memory 7 4 =
      some ⟨(7, 4) :: CpuHardware.new.supplied⟩) ∧
    CpuHardware.new.deallocate_memory 7 4 = none ∧
    (∀ hw1 : CpuHardware, CpuHardware.new.deallocate_memory 7 4 = some hw1 → False) ∧
    (∀ hw0 hw1 hw2 : CpuHardware, hw0.deallocate_memory 7 4 = some hw1 →
      hw1.deallocate_memory 7 4 = some hw2 → False) ∧
    CpuHardware.new.allocate_memory 7 0 = some CpuHardware.new ∧
    CpuHardware.new.deallocate_memory 7 0 = some CpuHardware.new :=
  ⟨⟨by decide, by decide⟩,
   c10_cpu_registry CpuHardware.new 7 4 (by decide) (by decide)⟩

/-
The newer generation: src/node.rs with the operators of src/operator/.  The
Graph type and the Operator/Gradient traits this generation uses are absent
from the snapshot (only src/graph.rs of the older generation is present), so
the graph container itself follows spec section 4.6; everything marked with a
source file below is translated from that file.
-/

/-- Operator (the uniform capability of src/operator/*.rs): the concrete
variant set Constant, Fill, Neg, Add, Sub, Mul, Div. -/
inductive Op where
  | constant (value : Arr)
  | fill (hardware : Nat) (shape : Shape) (value : Rat)
  | neg
  | add
  | sub
  | mul
  | div
deriving DecidableEq, Repr

/-- Operator::input_size of each operator (src/operator/*.rs). -/
def Op.input_size : Op → Nat
  | .constant _ => 0
  | .fill _ _ _ => 0
  | .neg => 1
  | .add => 2
  | .sub => 2
  | .mul => 2
  | .div => 2

/-- Operator::perform_shape of each operator (src/operator/*.rs): Constant
and Fill return their stored shape, Neg copies its input shape, the binary
operators call Shape::elementwise.  The source indexes the input slice, which
is in bounds whenever the caller respects input_size; a mismatch would be an
out-of-bounds panic and is unreachable from Graph::add_step. -/
def Op.perform_shape (op : Op) (inputs : List Shape) : Except Error Shape :=
  match op, inputs with
  | .constant v, _ => .ok v.shape
  | .fill _ sh _, _ => .ok sh
  | .neg, [s] => .ok s
  | .add, [a, b] => a.elementwise b
  | .sub, [a, b] => a.elementwise b
  | .mul, [a, b] => a.elementwise b
  | .div, [a, b] => a.elementwise b
  | _, _ => .error .notSupported

/-- Operator::perform_hardware.  Fill and Constant override it to return
their stored hardware (src/operator/fill.rs, src/operator/constant.rs).
Modelled from the spec: the default implementation in the missing Operator
trait — spec section 4.5 — returns the first input hardware when all inputs
agree and InvalidNode otherwise (behaviour also pinned by the
test_perform_hardware tests of the operator files). -/
def Op.perform_hardware (op : Op) (inputs : List Nat) : Except Error Nat :=
  match op with
  | .constant v => .ok v.hardware
  | .fill hw _ _ => .ok hw
  | _ =>
    match inputs with
    | [] => .error .invalidNode
    | h :: t => if t.all (fun x => x == h) then .ok h else .error .invalidNode

/-- Operator::perform of each operator (src/operator/*.rs): Constant clones
its stored array, Fill builds Array::fill_f32, the rest dispatch to the
elementwise array operations. -/
def Op.perform (op : Op) (inputs : List Arr) : Except Error Arr :=
  match op, inputs with
  | .constant v, _ => .ok v
  | .fill hw sh v, _ => .ok (Arr.fill_f32 hw sh v)
  | .neg, [x] => .ok x.elementwise_neg_f32
  | .add, [a, b] => a.elementwise_add_f32 b
  | .sub, [a, b] => a.elementwise_sub_f32 b
  | .mul, [a, b] => a.elementwise_mul_f32 b
  | .div, [a, b] => a.elementwise_div_f32 b
  | _, _ => .error .notSupported

/-- The gradient objects returned by Operator::get_gradient_fn: NegGrad,
AddGrad, SubGrad, MulGrad, DivGrad (src/operator/*.rs). -/
inductive GradFn where
  | neg
  | add
  | sub
  | mul
  | div
deriving DecidableEq, Repr

/-- Operator::get_gradient_fn (src/operator/*.rs): the five arithmetic
operators return their gradient object; Constant and Fill keep the trait
default None (they are leaves for backpropagation). -/
def Op.get_gradient_fn : Op → Option GradFn
  | .neg => some .neg
  | .add => some .add
  | .sub => some .sub
  | .mul => some .mul
  | .div => some .div
  | _ => none

/-- Modelled from the spec: the output placeholder of a Step (spec section 3,
Step) — Unassigned(shape, hardware) when the step is appended, Assigned(array)
once the evaluator ran it.  Node::shape and Node::hardware of src/node.rs
read it through get_step without evaluating anything. -/
inductive Output where
  | unassigned (shape : Shape) (hardware : Nat)
  | assigned (value : Arr)
deriving DecidableEq, Repr

/-- Shape carried by the placeholder, available in both states. -/
def Output.shape : Output → Shape
  | .unassigned sh _ => sh
  | .assigned a => a.shape

/-- Hardware carried by the placeholder, available in both states. -/
def Output.hardware : Output → Nat
  | .unassigned _ hw => hw
  | .assigned a => a.hardware

/-- Whether the evaluator already stored a value. -/
def Output.isAssigned : Output → Bool
  | .unassigned _ _ => false
  | .assigned _ => true

/-- Step of the newer generation: operator, input step ids, output
placeholder (spec section 3; the inputs field and its use are pinned by
src/node.rs). -/
structure Step where
  operator : Op
  inputs : List Nat
  output : Output
deriving DecidableEq, Repr

/-- Graph of the newer generation: append-only list of steps. -/
structure Graph where
  steps : List Step
deriving DecidableEq, Repr

/-- Graph::num_steps (used by src/node.rs grad). -/
def Graph.num_steps (g : Graph) : Nat := g.steps.length

/-- Graph::get_step (used by src/node.rs): the step at an id, none when
dangling (src/node.rs always unwraps the result). -/
def Graph.get_step (g : Graph) (i : Nat) : Option Step := g.steps[i]?

/-- Modelled from the spec: Graph::add_step of the newer generation (spec
section 4.6) — validate the arity, resolve the input steps (a dangling id is
an InvalidNode error, as in the check_address of the older generation), infer
shape and hardware from the input placeholders, push a step with an
Unassigned placeholder, and return the new step id. -/
def Graph.add_step (g : Graph) (op : Op) (inputs : List Nat) :
    Except Error (Graph × Nat) :=
  if inputs.length ≠ op.input_size then .error .invalidLength
  else
    match inputs.mapM (fun i => g.steps[i]?) with
    | none => .error .invalidNode
    | some sts => do
      let sh ← op.perform_shape (sts.map (fun st => st.output.shape))
      let hw ← op.perform_hardware (sts.map (fun st => st.output.hardware))
      .ok (⟨g.steps ++ [⟨op, inputs, .unassigned sh hw⟩]⟩, g.num_steps)

/-- Node::shape (src/node.rs): get_step(id).unwrap().output.shape(); no
evaluation involved.  The unwrap panic on a dangling id is none. -/
def Graph.node_shape (g : Graph) (i : Nat) : Option Shape :=
  (g.get_step i).map (fun st => st.output.shape)

/-- Node::hardware (src/node.rs): same access path as Node::shape. -/
def Graph.node_hardware (g : Graph) (i : Nat) : Option Nat :=
  (g.get_step i).map (fun st => st.output.hardware)

/-- Node::from_scalar (src/node.rs): appends Constant(Array::scalar_f32) and
unwraps (panic modelled as none). -/
def Graph.node_from_scalar (g : Graph) (hw : Nat) (v : Rat) :
    Option (Graph × Nat) :=
  (g.add_step (.constant (Arr.scalar_f32 hw v)) []).toOption

/-- Node::fill (src/node.rs): appends the Fill operator and unwraps. -/
def Graph.node_fill (g : Graph) (hw : Nat) (sh : Shape) (v : Rat) :
    Option (Graph × Nat) :=
  (g.add_step (.fill hw sh v) []).toOption

/-- The unary minus overload on Node (src/node.rs): appends Neg and unwraps.
check_graph is trivially satisfied for these single-graph helpers; the
cross-graph behaviour is carried by grad below. -/
def Graph.node_neg (g : Graph) (a : Nat) : Option (Graph × Nat) :=
  (g.add_step .neg [a]).toOption

/-- The + overload on Node (src/node.rs). -/
def Graph.node_add (g : Graph) (a b : Nat) : Option (Graph × Nat) :=
  (g.add_step .add [a, b]).toOption

/-- The - overload on Node (src/node.rs). -/
def Graph.node_sub (g : Graph) (a b : Nat) : Option (Graph × Nat) :=
  (g.add_step .sub [a, b]).toOption

/-- The * overload on Node (src/node.rs). -/
def Graph.node_mul (g : Graph) (a b : Nat) : Option (Graph × Nat) :=
  (g.add_step .mul [a, b]).toOption

/-- The / overload on Node (src/node.rs). -/
def Graph.node_div (g : Graph) (a b : Nat) : Option (Graph × Nat) :=
  (g.add_step .div [a, b]).toOption

/-- Modelled from the spec: Graph::calculate of the newer generation follows
the recursion of spec section 4.6 (the explicit push-down automaton that the
spec states to be its stack-safe equivalent is embedded from source for the
older generation further below): a cached step returns immediately, otherwise
all inputs are evaluated first and the operator output is assigned.  Fuel
bounds the recursion depth; input ids strictly decrease in well-formed
graphs, so num_steps + 1 fuel is always enough. -/
def Graph.calc (fuel : Nat) (g : Graph) (sid : Nat) : Option Graph :=
  match fuel with
  | 0 => none
  | fuel' + 1 =>
    match g.steps[sid]? with
    | none => none
    | some st =>
      match st.output with
      | .assigned _ => some g
      | .unassigned _ _ => do
        let g1 ← st.inputs.foldlM (fun gg i => Graph.calc fuel' gg i) g
        let ins ← st.inputs.mapM (fun i =>
          match g1.steps[i]? with
          | some s2 =>
            match s2.output with
            | .assigned a => some a
            | .unassigned _ _ => none
          | none => none)
        let out ← (st.operator.perform ins).toOption
        match g1.steps[sid]? with
        | none => none
        | some st2 =>
          some ⟨g1.steps.set sid ⟨st2.operator, st2.inputs, .assigned out⟩⟩

/-- Graph::calculate of the newer generation (wrapper of the recursion with
its canonical fuel): evaluates the target and returns the new graph with the
cached value of the target. -/
def Graph.calculate (g : Graph) (sid : Nat) : Option (Graph × Arr) := do
  let g1 ← Graph.calc (g.num_steps + 1) g sid
  match g1.steps[sid]? with
  | some st =>
    match st.output with
    | .assigned a => some (g1, a)
    | .unassigned _ _ => none
  | none => none

/-- Gradient::perform of each gradient object (src/operator/*.rs), building
the gradient subgraph with the Node arithmetic overloads:
NegGrad gives [-gy]; AddGrad gives [gy, gy]; SubGrad gives [gy, -gy];
MulGrad gives [gy * x1, gy * x0]; DivGrad computes gx0 = gy / x1 and gives
[gx0, -y * gx0].  Slice indexing out of bounds and overload panics are none. -/
def GradFn.perform (k : GradFn) (g : Graph) (x : List Nat) (y gy : Nat) :
    Option (Graph × List Nat) :=
  match k with
  | .neg => do
    let (g1, n) ← g.node_neg gy
    some (g1, [n])
  | .add => some (g, [gy, gy])
  | .sub => do
    let (g1, n) ← g.node_neg gy
    some (g1, [gy, n])
  | .mul => do
    let x0 ← x[0]?
    let x1 ← x[1]?
    let (g1, a) ← g.node_mul gy x1
    let (g2, b) ← g1.node_mul gy x0
    some (g2, [a, b])
  | .div => do
    let x1 ← x[1]?
    let (g1, a) ← g.node_div gy x1
    let (g2, b) ← g1.node_neg y
    let (g3, c) ← g2.node_mul b a
    some (g3, [a, c])

/-- The gradient-integration loop body of grad (src/node.rs): each (input id,
gradient node) pair either initialises the slot or is summed into it with an
appended Add step. -/
def Graph.integrate (g : Graph) (slots : List (Option Nat)) :
    List (Nat × Nat) → Option (Graph × List (Option Nat))
  | [] => some (g, slots)
  | (x, gx) :: rest =>
    match slots.getD x none with
    | none => Graph.integrate g (slots.set x (some gx)) rest
    | some prev => do
      let (g1, n) ← g.node_add prev gx
      Graph.integrate g1 (slots.set x (some n)) rest

/-- The backpropagation loop of grad (src/node.rs), iterating the given step
ids (the source walks latest down to earliest + 1): skip when no gradient
reached the step or its operator has no gradient object; otherwise build the
local gradients and integrate them into the slots. -/
def Graph.backprop (g : Graph) (slots : List (Option Nat)) :
    List Nat → Option (Graph × List (Option Nat))
  | [] => some (g, slots)
  | s :: rest =>
    match slots.getD s none with
    | none => Graph.backprop g slots rest
    | some gy =>
      match g.get_step s with
      | none => none
      | some st =>
        match st.operator.get_gradient_fn with
        | none => Graph.backprop g slots rest
        | some k => do
          let (g1, gxs) ← k.perform g st.inputs s gy
          let (g2, slots2) ← Graph.integrate g1 slots (st.inputs.zip gxs)
          Graph.backprop g2 slots2 rest

/-- The collection phase of grad (src/node.rs): for each requested node take
its slot, or append a zero Fill of its shape and hardware when no gradient
propagation reached it. -/
def Graph.collect (g : Graph) (slots : List (Option Nat)) :
    List Nat → Option (Graph × List Nat)
  | [] => some (g, [])
  | x :: rest =>
    match slots.getD x none with
    | some n => do
      let (g1, ns) ← Graph.collect g slots rest
      some (g1, n :: ns)
    | none => do
      let xsh ← g.node_shape x
      let xhw ← g.node_hardware x
      let (g1, n) ← g.node_fill xhw xsh 0
      let (g2, ns) ← Graph.collect g1 slots rest
      some (g2, n :: ns)

/-- grad (src/node.rs) on one graph, after the cross-graph check: empty xs
returns the empty vector untouched; otherwise the slot table of num_steps
slots is allocated, the slot of y is seeded with a fresh one-filled Fill node
of the shape and hardware of y, the loop walks the ids from y down to
min(xs) + 1, and the requested slots are collected (absent ones as fresh
zero Fill nodes). -/
def Graph.grad_core (g : Graph) (y : Nat) (xs : List Nat) :
    Option (Graph × List Nat) :=
  match xs with
  | [] => some (g, [])
  | x0 :: rest => do
    let earliest := rest.foldl Nat.min x0
    let latest := y
    let slots0 : List (Option Nat) := List.replicate g.num_steps none
    let ysh ← g.node_shape y
    let yhw ← g.node_hardware y
    let (g1, seed) ← g.node_fill yhw ysh 1
    let slots1 := slots0.set latest (some seed)
    let ids := (List.range' (earliest + 1) (latest - earliest)).reverse
    let (g2, slots2) ← g1.backprop slots1 ids
    Graph.collect g2 slots2 xs

set_option maxRecDepth 400000

unseal Rat.add Rat.mul Rat.inv Rat.sub

/-- The forward graph of scenario S4 (claim C1): one CPU hardware (id 0), a
fresh graph, x = from_scalar(5), y = x*x*x (two Mul steps via the operator
overloads).  Returns the graph with the node ids of x and y. -/
def c1_forward : Option (Graph × Nat × Nat) := do
  let g0 : Graph := ⟨[]⟩
  let (g1, x) ← g0.node_from_scalar 0 5
  let (g2, m) ← g1.node_mul x x
  let (g3, y) ← g2.node_mul m x
  some (g3, x, y)

/-- Four successive grad calls of scenario S4, each differentiating the node
returned by the previous call with respect to x, all on the one graph. -/
def c1_grads : Option (Graph × Graph × Nat × Nat × Nat × Nat × Nat) := do
  let (g3, x, y) ← c1_forward
  let (g4, l1) ← g3.grad_core y [x]
  let gx1 ← l1[0]?
  let (g5, l2) ← g4.grad_core gx1 [x]
  let gx2 ← l2[0]?
  let (g6, l3) ← g5.grad_core gx2 [x]
  let gx3 ← l3[0]?
  let (g7, l4) ← g6.grad_core gx3 [x]
  let gx4 ← l4[0]?
  some (g3, g7, x, gx1, gx2, gx3, gx4)

/-- Evaluation of the four gradient nodes of scenario S4, threading the value
cache through the four calculate calls. -/
def c1_values : Option (Rat × Rat × Rat × Rat) := do
  let (_, g7, _, gx1, gx2, gx3, gx4) ← c1_grads
  let (g8, a1) ← g7.calculate gx1
  let v1 ← a1.get_scalar_f32.toOption
  let (g9, a2) ← g8.calculate gx2
  let v2 ← a2.get_scalar_f32.toOption
  let (g10, a3) ← g9.calculate gx3
  let v3 ← a3.get_scalar_f32.toOption
  let (_, a4) ← g10.calculate gx4
  let v4 ← a4.get_scalar_f32.toOption
  some (v1, v2, v3, v4)

/-- The composition side of claim C1 on the S4 run: the final graph keeps the
whole forward graph as an unchanged prefix (grad only appends new steps), and
no step appended by any of the four grad calls carries an evaluated array
(gradient builders never evaluate). -/
def c1_composes : Option Bool := do
  let (g3, g7, _, _) ← c1_grads
  some (decide (g7.steps.take g3.num_steps = g3.steps) &&
    (g7.steps.drop g3.num_steps).all (fun st => !st.output.isAssigned))

/-- C1: with x = from_scalar(5) and y = x*x*x on one graph and hardware, the
four successive grad calls (each on the node returned by the previous one)
yield nodes evaluating to 75, 30, 6 and 0; the grad calls only append
unevaluated steps, which is why they compose. -/
theorem c1_higher_order_gradients :
    c1_values = some (75, 30, 6, 0) ∧ c1_composes = some true := by
  constructor
  · decide
  · decide

/-- The graph of scenario S3 (claim C2): a = from_scalar(3),
b = from_scalar(2), y = a / b. -/
def c2_forward : Option (Graph × Nat × Nat × Nat) := do
  let g0 : Graph := ⟨[]⟩
  let (g1, a) ← g0.node_from_scalar 0 3
  let (g2, b) ← g1.node_from_scalar 0 2
  let (g3, y) ← g2.node_div a b
  some (g3, a, b, y)

/-- grad(y, [a, b]) of scenario S3: the pre-grad graph, the post-grad graph
and the returned gradient nodes. -/
def c2_grad : Option (Graph × Graph × List Nat) := do
  let (g3, a, b, y) ← c2_forward
  let (g4, l) ← g3.grad_core y [a, b]
  some (g3, g4, l)

/-- The two gradient values of scenario S3. -/
def c2_values : Option (Rat × Rat) := do
  let (_, g4, l) ← c2_grad
  let ga ← l[0]?
  let gb ← l[1]?
  let (g5, arrA) ← g4.calculate ga
  let va ← arrA.get_scalar_f32.toOption
  let (_, arrB) ← g5.calculate gb
  let vb ← arrB.get_scalar_f32.toOption
  some (va, vb)

/-- C2: grad(y, [a, b]) for a = 3, b = 2, y = a/b returns exactly two nodes
which evaluate to 0.5 and -0.75; the steps appended by grad are exactly the
one-filled seed, then div(gy, x1), neg(y) and mul(neg(y), div(gy, x1))
emitted by DivGrad — the pair (gy/x1, -y*gy/x1) as new graph nodes — and the
returned nodes are the div output and the mul output. -/
theorem c2_div_gradient :
    (c2_grad.map (fun t => t.2.2)) = some [4, 6] ∧
    (c2_grad.map (fun t =>
        (t.2.1.steps.drop t.1.num_steps).map (fun st =>
          (st.operator, st.inputs)))) =
      some [(.fill 0 ⟨[]⟩ 1, []), (.div, [3, 1]), (.neg, [2]),
            (.mul, [5, 4])] ∧
    c2_values = some (1/2, -3/4) := by
  refine ⟨by decide, by decide, by decide⟩

/-- Node handle for the cross-graph statement of grad: which graph the node
lives on (Rust compares the graph references by pointer; the model uses an
index into a list of graphs) and the step id. -/
structure NodeRef where
  graph : Nat
  step_id : Nat
deriving DecidableEq, Repr

/-- grad (src/node.rs).  The cross-graph check comes first: when some x does
not live on the graph of y, the function returns InvalidNode before touching
any graph, hence the unchanged world in that branch.  Otherwise the
single-graph body runs on the graph of y (panics of the unreachable unwraps
inside are the Option layer; a dangling world index would be such a panic). -/
def grad (w : List Graph) (y : NodeRef) (xs : List NodeRef) :
    List Graph × Except Error (Option (List NodeRef)) :=
  if xs.all (fun x => x.graph == y.graph) then
    match w[y.graph]? with
    | none => (w, .ok none)
    | some g =>
      match g.grad_core y.step_id (xs.map (fun x => x.step_id)) with
      | none => (w, .ok none)
      | some (g1, outs) =>
        (w.set y.graph g1, .ok (some (outs.map (fun n => ⟨y.graph, n⟩))))
  else (w, .error .invalidNode)

/-- C6: when any element of xs lives on a different graph than y, grad
returns InvalidNode in the recoverable API, and it does so before appending
any step: the returned world is the input world, both graphs unchanged. -/
theorem c6_cross_graph (w : List Graph) (y : NodeRef) (xs : List NodeRef)
    (h : ∃ x ∈ xs, x.graph ≠ y.graph) :
    grad w y xs = (w, .error .invalidNode) := by
  obtain ⟨x, hx, hne⟩ := h
  have : xs.all (fun x => x.graph == y.graph) = false := by
    rw [List.all_eq_false]
    exact ⟨x, hx, by simpa using hne⟩
  simp [grad, this]

/-- Two one-step graphs for the C6 witness: x built on the first graph, y on
the second. -/
def c6_world : List Graph :=
  [⟨[⟨.constant (Arr.scalar_f32 0 1), [], .unassigned ⟨[]⟩ 0⟩]⟩,
   ⟨[⟨.constant (Arr.scalar_f32 0 2), [], .unassigned ⟨[]⟩ 0⟩]⟩]

/-- C6 witness: grad across the two graphs of c6_world errors with the world
untouched. -/
theorem c6_witness :
    (∃ x ∈ [NodeRef.mk 0 0], x.graph ≠ (NodeRef.mk 1 0).graph) ∧
    grad c6_world ⟨1, 0⟩ [⟨0, 0⟩] = (c6_world, .error .invalidNode) :=
  ⟨by decide, c6_cross_graph c6_world ⟨1, 0⟩ [⟨0, 0⟩] (by decide)⟩

/-- C7: immediately after add_step appends a step (spec-section-4.6
behaviour of the newer generation), the shape and hardware queries of
src/node.rs succeed on the new node and return exactly the operator-inferred
shape and hardware; the appended step is Unassigned and all other steps are
untouched, so no evaluation is involved. -/
theorem c7_shape_on_creation (g : Graph) (op : Op) (inputs : List Nat)
    (g1 : Graph) (sid : Nat) (h : g.add_step op inputs = .ok (g1, sid)) :
    ∃ sts sh hw,
      inputs.mapM (fun i => g.steps[i]?) = some sts ∧
      op.perform_shape (sts.map (fun st => st.output.shape)) = .ok sh ∧
      op.perform_hardware (sts.map (fun st => st.output.hardware)) = .ok hw ∧
      sid = g.num_steps ∧
      g1.steps = g.steps ++ [⟨op, inputs, .unassigned sh hw⟩] ∧
      g1.node_shape sid = some sh ∧
      g1.node_hardware sid = some hw := by
  unfold Graph.add_step at h
  split at h
  · exact absurd h (by simp)
  cases hm : inputs.mapM (fun i => g.steps[i]?) with
  | none => rw [hm] at h; exact absurd h (by simp)
  | some sts =>
    rw [hm] at h
    cases hsh : op.perform_shape (sts.map (fun st => st.output.shape)) with
    | error e => simp [hsh, bind, Except.bind] at h
    | ok sh =>
      cases hhw : op.perform_hardware
          (sts.map (fun st => st.output.hardware)) with
      | error e => simp [hsh, hhw, bind, Except.bind] at h
      | ok hw =>
        simp only [hsh, hhw, bind, Except.bind, Except.ok.injEq,
          Prod.mk.injEq] at h
        obtain ⟨hg1, hsid⟩ := h
        refine ⟨sts, sh, hw, rfl, hsh, hhw, hsid.symm, ?_, ?_, ?_⟩
        · rw [← hg1]
        · subst hg1 hsid
          simp [Graph.node_shape, Graph.get_step, Graph.num_steps,
            List.getElem?_concat_length, Output.shape]
        · subst hg1 hsid
          simp [Graph.node_hardware, Graph.get_step, Graph.num_steps,
            List.getElem?_concat_length, Output.hardware]

/-- A one-step graph for the C7 witness. -/
def c7_g : Graph := ⟨[⟨.constant (Arr.scalar_f32 0 5), [], .unassigned ⟨[]⟩ 0⟩]⟩

/-- c7_g after appending a Neg step on its node 0. -/
def c7_g1 : Graph :=
  ⟨[⟨.constant (Arr.scalar_f32 0 5), [], .unassigned ⟨[]⟩ 0⟩,
    ⟨.neg, [0], .unassigned ⟨[]⟩ 0⟩]⟩

/-- C7 witness: appending Neg to c7_g yields node 1 whose shape and hardware
queries answer from the inferred placeholder. -/
theorem c7_witness :
    (c7_g.add_step .neg [0] = .ok (c7_g1, 1)) ∧
    ∃ sts sh hw,
      [0].mapM (fun i => c7_g.steps[i]?) = some sts ∧
      Op.neg.perform_shape (sts.map (fun st => st.output.shape)) = .ok sh ∧
      Op.neg.perform_hardware (sts.map (fun st => st.output.hardware)) =
        .ok hw ∧
      (1 : Nat) = c7_g.num_steps ∧
      c7_g1.steps = c7_g.steps ++ [⟨.neg, [0], .unassigned sh hw⟩] ∧
      c7_g1.node_shape 1 = some sh ∧
      c7_g1.node_hardware 1 = some hw :=
  ⟨by decide, c7_shape_on_creation c7_g .neg [0] c7_g1 1 (by decide)⟩

/-
The older generation: src/graph.rs with the operator module of
src/operator.rs.  Values are addressed by (step id, output id) pairs and a
step caches a vector of output arrays; every concrete operator has exactly
one output.
-/

/-- NodeAddress (src/graph.rs): step id and output id. -/
structure NodeAddress where
  step_id : Nat
  output_id : Nat
deriving DecidableEq, Repr

/-- Operator of the older generation (src/operator.rs): Constant, Neg, Add,
Sub, Mul, Div. -/
inductive Op0 where
  | constant (value : Arr)
  | neg
  | add
  | sub
  | mul
  | div
deriving DecidableEq, Repr

/-- Operator::input_size (src/operator.rs). -/
def Op0.input_size : Op0 → Nat
  | .constant _ => 0
  | .neg => 1
  | .add => 2
  | .sub => 2
  | .mul => 2
  | .div => 2

/-- Operator::output_size (src/operator.rs): 1 for every operator. -/
def Op0.output_size : Op0 → Nat := fun _ => 1

/-- Operator::perform (src/operator.rs): Constant clones its stored array and
ignores its inputs; the rest dispatch to the elementwise array operations and
wrap the result in a one-element vector.  The slice indexing of the source is
in bounds whenever the caller respects input_size (add_step guarantees it);
the fallback stands for the out-of-bounds panic. -/
def Op0.perform (op : Op0) (inputs : List Arr) : Except Error (List Arr) :=
  match op, inputs with
  | .constant v, _ => .ok [v]
  | .neg, [x] => .ok [x.elementwise_neg_f32]
  | .add, [a, b] => (a.elementwise_add_f32 b).map (fun r => [r])
  | .sub, [a, b] => (a.elementwise_sub_f32 b).map (fun r => [r])
  | .mul, [a, b] => (a.elementwise_mul_f32 b).map (fun r => [r])
  | .div, [a, b] => (a.elementwise_div_f32 b).map (fun r => [r])
  | _, _ => .error .notSupported

/-- Step (src/graph.rs): operator, input addresses, optional cached outputs. -/
structure Step0 where
  operator : Op0
  inputs : List NodeAddress
  outputs : Option (List Arr)
deriving DecidableEq, Repr

/-- Graph (src/graph.rs): the vector of registered steps. -/
structure Graph0 where
  steps : List Step0
deriving DecidableEq, Repr

/-- Graph::check_address (src/graph.rs): InvalidNode when the step id is out
of range, then InvalidNode when the output id is not below the output size of
the addressed operator. -/
def Graph0.check_address (g : Graph0) (addr : NodeAddress) :
    Except Error Unit :=
  match g.steps[addr.step_id]? with
  | none => .error .invalidNode
  | some st =>
    if st.operator.output_size ≤ addr.output_id then .error .invalidNode
    else .ok ()

/-- The input-validation loop of Graph::add_step. -/
def Graph0.check_inputs (g : Graph0) : List NodeAddress → Except Error Unit
  | [] => .ok ()
  | a :: rest => do
    g.check_address a
    g.check_inputs rest

/-- Graph::add_step (src/graph.rs): arity check (InvalidLength), the guard
against operators without outputs (OutOfRange), validation of every input
address, then the push of an unevaluated step; the returned addresses
enumerate the outputs of the new step. -/
def Graph0.add_step (g : Graph0) (op : Op0) (inputs : List NodeAddress) :
    Except Error (Graph0 × List NodeAddress) :=
  let new_step_id := g.steps.length
  if inputs.length ≠ op.input_size then .error .invalidLength
  else if op.output_size = 0 then .error .outOfRange
  else do
    g.check_inputs inputs
    .ok (⟨g.steps ++ [⟨op, inputs, none⟩]⟩,
      (List.range op.output_size).map (fun oid => ⟨new_step_id, oid⟩))

/-- The graphs reachable from Graph::new by a sequence of add_step calls. -/
inductive Graph0.Reachable : Graph0 → Prop where
  | new : Graph0.Reachable ⟨[]⟩
  | add_step {g : Graph0} {op : Op0} {inputs : List NodeAddress}
      {g1 : Graph0} {addrs : List NodeAddress} : Graph0.Reachable g →
      g.add_step op inputs = .ok (g1, addrs) → Graph0.Reachable g1

/-- The topological invariant of claim C5, as a predicate shared with C4:
every input address of every stored step points strictly below the step. -/
def Graph0.Wf (g : Graph0) : Prop :=
  ∀ (i : Nat) (st : Step0), g.steps[i]? = some st →
    ∀ a ∈ st.inputs, a.step_id < i

theorem check_address_ok_lt {g : Graph0} {a : NodeAddress}
    (h : g.check_address a = .ok ()) : a.step_id < g.steps.length := by
  unfold Graph0.check_address at h
  cases hl : g.steps[a.step_id]? with
  | none => rw [hl] at h; exact absurd h (by simp)
  | some st => exact (List.getElem?_eq_some.mp hl).1

theorem check_inputs_ok {g : Graph0} {l : List NodeAddress}
    (h : g.check_inputs l = .ok ()) :
    ∀ a ∈ l, a.step_id < g.steps.length := by
  induction l with
  | nil => intro a ha; exact absurd ha (List.not_mem_nil a)
  | cons b rest ih =>
    intro a ha
    unfold Graph0.check_inputs at h
    cases hb : g.check_address b with
    | error e => rw [hb] at h; exact absurd h (by simp [bind, Except.bind])
    | ok u =>
      rw [hb] at h
      simp only [bind, Except.bind] at h
      rcases List.mem_cons.mp ha with rfl | hmem
      · cases u; exact check_address_ok_lt hb
      · exact ih h a hmem

theorem add_step0_ok {g : Graph0} {op : Op0} {inputs : List NodeAddress}
    {g1 : Graph0} {addrs : List NodeAddress}
    (h : g.add_step op inputs = .ok (g1, addrs)) :
    g1.steps = g.steps ++ [⟨op, inputs, none⟩] ∧
    g.check_inputs inputs = .ok () := by
  unfold Graph0.add_step at h
  split at h
  · exact absurd h (by simp)
  split at h
  · exact absurd h (by simp)
  cases hc : g.check_inputs inputs with
  | error e => rw [hc] at h; exact absurd h (by simp [bind, Except.bind])
  | ok u =>
    rw [hc] at h
    simp only [bind, Except.bind, Except.ok.injEq, Prod.mk.injEq] at h
    cases u
    exact ⟨by rw [← h.1], rfl⟩

/-- C5: every graph reachable by a sequence of add_step calls satisfies the
topological invariant — each input address of each stored step names a step
strictly below it (add_step validates every address against the steps already
present, so the graph is a DAG by construction). -/
theorem c5_topological_invariant (g : Graph0) (hg : g.Reachable) :
    ∀ (i : Nat) (st : Step0), g.steps[i]? = some st →
      ∀ a ∈ st.inputs, a.step_id < i := by
  induction hg with
  | new =>
    intro i st h
    simp [List.getElem?_eq_none (by simp : (Graph0.mk []).steps.length ≤ i)] at h
  | @add_step g op inputs g1 addrs hg hstep ih =>
    obtain ⟨hsteps, hchk⟩ := add_step0_ok hstep
    intro i st hlook a ha
    rw [hsteps] at hlook
    rcases Nat.lt_trichotomy i g.steps.length with hi | hi | hi
    · rw [List.getElem?_append_left hi] at hlook
      exact ih i st hlook a ha
    · subst hi
      rw [List.getElem?_concat_length] at hlook
      cases hlook
      exact check_inputs_ok hchk a ha
    · rw [List.getElem?_eq_none (by simp [Nat.succ_le_of_lt hi])] at hlook
      cases hlook

/-- One-step graphs for the C5 witness. -/
def c5_g1 : Graph0 := ⟨[⟨.constant (Arr.scalar_f32 0 1), [], none⟩]⟩

/-- Two constants. -/
def c5_g2 : Graph0 :=
  ⟨[⟨.constant (Arr.scalar_f32 0 1), [], none⟩,
    ⟨.constant (Arr.scalar_f32 0 2), [], none⟩]⟩

/-- Two constants and their sum. -/
def c5_g3 : Graph0 :=
  ⟨[⟨.constant (Arr.scalar_f32 0 1), [], none⟩,
    ⟨.constant (Arr.scalar_f32 0 2), [], none⟩,
    ⟨.add, [⟨0, 0⟩, ⟨1, 0⟩], none⟩]⟩

/-- C5 witness: the three-step graph is reachable and topological. -/
theorem c5_witness :
    Graph0.Reachable c5_g3 ∧
    (∀ (i : Nat) (st : Step0), c5_g3.steps[i]? = some st →
      ∀ a ∈ st.inputs, a.step_id < i) := by
  have h0 : Graph0.Reachable ⟨[]⟩ := .new
  have h1 : Graph0.Reachable c5_g1 :=
    .add_step h0 (show Graph0.add_step ⟨[]⟩
      (.constant (Arr.scalar_f32 0 1)) [] = .ok (c5_g1, [⟨0, 0⟩]) by decide)
  have h2 : Graph0.Reachable c5_g2 :=
    .add_step h1 (show Graph0.add_step c5_g1
      (.constant (Arr.scalar_f32 0 2)) [] = .ok (c5_g2, [⟨1, 0⟩]) by decide)
  have h3 : Graph0.Reachable c5_g3 :=
    .add_step h2 (show Graph0.add_step c5_g2
      .add [⟨0, 0⟩, ⟨1, 0⟩] = .ok (c5_g3, [⟨2, 0⟩]) by decide)
  exact ⟨h3, c5_topological_invariant c5_g3 h3⟩

/-- The two phases of the push-down automaton of Graph::calculate
(src/graph.rs). -/
inductive Action0 where
  | fetch
  | perform
deriving DecidableEq, Repr

/-- Graph::is_calculated_unchecked (src/graph.rs): whether the step holds a
cached value (false also stands for the out-of-range UB case, which the
automaton never reaches from a validated target). -/
def Graph0.is_calculated (g : Graph0) (sid : Nat) : Bool :=
  match g.steps[sid]? with
  | some st => st.outputs.isSome
  | none => false

/-- The input gathering of the Perform phase (src/graph.rs): every input
address is read from its step's now-assigned outputs; the source unwraps and
indexes, so a missing value is the panic none. -/
def Graph0.gather (g : Graph0) : List NodeAddress → Option (List Arr)
  | [] => some []
  | a :: rest => do
    let st ← g.steps[a.step_id]?
    let outs ← st.outputs
    let v ← outs[a.output_id]?
    let vs ← g.gather rest
    some (v :: vs)

/-- The output assignment of the Perform phase (src/graph.rs). -/
def Graph0.set_outputs (g : Graph0) (sid : Nat) (outs : List Arr) : Graph0 :=
  match g.steps[sid]? with
  | none => g
  | some st => ⟨g.steps.set sid ⟨st.operator, st.inputs, some outs⟩⟩

/-- The loop of Graph::calculate (src/graph.rs).  The stack holds (step id,
action) pairs, list head on top.  Fetch of a cached step is dropped; Fetch of
an uncached step pushes its Perform and then the Fetches of its inputs in
order, so the last input ends on top; Perform gathers the input values, runs
the operator and assigns the outputs (the unwrap panics of the source are
none).  The performed argument accumulates the ids whose operator ran,
instrumenting the run for the at-most-once statement of C4; fuel bounds the
loop. -/
def Graph0.run : Graph0 → List (Nat × Action0) → List Nat → Nat →
    Option (Graph0 × List Nat)
  | g, [], performed, _ => some (g, performed)
  | _, _ :: _, _, 0 => none
  | g, (sid, .fetch) :: rest, performed, fuel + 1 =>
    match g.steps[sid]? with
    | none => none
    | some st =>
      if st.outputs.isSome then g.run rest performed fuel
      else g.run ((st.inputs.map (fun a => (a.step_id, Action0.fetch))).reverse
          ++ (sid, Action0.perform) :: rest) performed fuel
  | g, (sid, .perform) :: rest, performed, fuel + 1 =>
    match g.steps[sid]? with
    | none => none
    | some st =>
      match g.gather st.inputs with
      | none => none
      | some ins =>
        match st.operator.perform ins with
        | .error _ => none
        | .ok outs => (g.set_outputs sid outs).run rest (sid :: performed) fuel

/-- Outcome of Graph::calculate: a returned error, a panic or fuel
exhaustion (stuck), or the value. -/
inductive Outcome (α : Type) where
  | err (e : Error)
  | stuck
  | ok (v : α)
deriving DecidableEq, Repr

/-- The canonical fuel of a run: never less than 2, and far above the number
of pops any terminating run performs. -/
def Graph0.fuel (g : Graph0) : Nat := (g.steps.length + 1) * (g.steps.length + 2)

/-- Graph::get_value_unchecked (src/graph.rs): clone of the addressed output
of an already calculated step. -/
def Graph0.get_value (g : Graph0) (addr : NodeAddress) : Option Arr := do
  let st ← g.steps[addr.step_id]?
  let outs ← st.outputs
  outs[addr.output_id]?

/-- Graph::calculate (src/graph.rs): validate the target address, run the
push-down automaton seeded with Fetch of the target, and return the clone of
the target value. -/
def Graph0.calculate (g : Graph0) (target : NodeAddress) :
    Outcome (Graph0 × Arr) :=
  match g.check_address target with
  | .error e => .err e
  | .ok _ =>
    match g.run [(target.step_id, .fetch)] [] g.fuel with
    | none => .stuck
    | some (g1, _) =>
      match g1.get_value target with
      | none => .stuck
      | some a => .ok (g1, a)

/-- The stack invariant of the automaton: every entry is in range, every
pending Perform is still unassigned, and every entry lies strictly below
every Perform beneath it (so a Perform always executes before any other
entry of its step id is reached). -/
def StackOk (g : Graph0) : List (Nat × Action0) → Prop
  | [] => True
  | (sid, act) :: rest =>
      sid < g.steps.length ∧
      (act = .perform → g.is_calculated sid = false) ∧
      (∀ p ∈ rest, p.2 = .perform → sid < p.1) ∧
      StackOk g rest

theorem set_outputs_length (g : Graph0) (sid : Nat) (outs : List Arr) :
    (g.set_outputs sid outs).steps.length = g.steps.length := by
  unfold Graph0.set_outputs
  cases h : g.steps[sid]? <;> simp

theorem set_outputs_lookup_ne (g : Graph0) (sid : Nat) (outs : List Arr)
    (j : Nat) (hne : j ≠ sid) :
    (g.set_outputs sid outs).steps[j]? = g.steps[j]? := by
  unfold Graph0.set_outputs
  cases h : g.steps[sid]? with
  | none => rfl
  | some st => exact List.getElem?_set_ne (fun he => hne he.symm)

theorem set_outputs_lookup_self {g : Graph0} {sid : Nat} {st : Step0}
    (outs : List Arr) (h : g.steps[sid]? = some st) :
    (g.set_outputs sid outs).steps[sid]? =
      some ⟨st.operator, st.inputs, some outs⟩ := by
  unfold Graph0.set_outputs
  rw [h]
  exact List.getElem?_set_eq_of_lt _ (List.getElem?_eq_some.mp h).1

theorem is_calculated_set_self {g : Graph0} {sid : Nat} {st : Step0}
    (outs : List Arr) (h : g.steps[sid]? = some st) :
    (g.set_outputs sid outs).is_calculated sid = true := by
  unfold Graph0.is_calculated
  rw [set_outputs_lookup_self outs h]
  rfl

theorem is_calculated_set_ne (g : Graph0) (sid : Nat) (outs : List Arr)
    (j : Nat) (hne : j ≠ sid) :
    (g.set_outputs sid outs).is_calculated j = g.is_calculated j := by
  unfold Graph0.is_calculated
  rw [set_outputs_lookup_ne g sid outs j hne]

theorem wf_set_outputs {g : Graph0} (sid : Nat) (outs : List Arr)
    (hwf : g.Wf) : (g.set_outputs sid outs).Wf := by
  intro i st h a ha
  by_cases hi : i = sid
  · subst hi
    cases hl : g.steps[i]? with
    | none =>
      unfold Graph0.set_outputs at h
      rw [hl] at h
      rw [hl] at h
      exact absurd h (by simp)
    | some st0 =>
      rw [set_outputs_lookup_self outs hl] at h
      cases h
      exact hwf i st0 hl a ha
  · rw [set_outputs_lookup_ne g sid outs i hi] at h
    exact hwf i st h a ha

theorem stackok_transport {g g' : Graph0} {T : List (Nat × Action0)}
    (h : StackOk g T) (hlen : g'.steps.length = g.steps.length)
    (hcalc : ∀ p ∈ T, p.2 = Action0.perform →
      g'.is_calculated p.1 = g.is_calculated p.1) : StackOk g' T := by
  induction T with
  | nil => trivial
  | cons e T ih =>
    obtain ⟨sid, act⟩ := e
    obtain ⟨h1, h2, h3, h4⟩ := h
    refine ⟨hlen ▸ h1, ?_, h3, ih h4
      (fun p hp hperf => hcalc p (List.mem_cons_of_mem _ hp) hperf)⟩
    intro hp
    rw [hcalc (sid, act) (List.mem_cons_self _ _) hp]
    exact h2 hp

theorem stackok_append_fetches {g : Graph0} {A T : List (Nat × Action0)}
    (hA : ∀ x ∈ A, x.2 = Action0.fetch)
    (hAr : ∀ x ∈ A, x.1 < g.steps.length)
    (hAp : ∀ x ∈ A, ∀ p ∈ T, p.2 = Action0.perform → x.1 < p.1)
    (hT : StackOk g T) : StackOk g (A ++ T) := by
  induction A with
  | nil => simpa using hT
  | cons x A ih =>
    obtain ⟨x1, x2⟩ := x
    have hxf : x2 = Action0.fetch := hA (x1, x2) (List.mem_cons_self _ _)
    refine ⟨hAr (x1, x2) (List.mem_cons_self _ _), ?_, ?_, ?_⟩
    · intro hp
      rw [hxf] at hp
      cases hp
    · intro p hp hperf
      rcases List.mem_append.mp hp with hpa | hpt
      · have : p.2 = Action0.fetch := hA p (List.mem_cons_of_mem _ hpa)
        rw [this] at hperf
        cases hperf
      · exact hAp (x1, x2) (List.mem_cons_self _ _) p hpt hperf
    · exact ih (fun y hy => hA y (List.mem_cons_of_mem _ hy))
        (fun y hy => hAr y (List.mem_cons_of_mem _ hy))
        (fun y hy => hAp y (List.mem_cons_of_mem _ hy))

theorem run_spec (fuel : Nat) :
    ∀ (g : Graph0) (stack : List (Nat × Action0)) (performed : List Nat)
      (g1 : Graph0) (P : List Nat),
      Graph0.Wf g → StackOk g stack →
      g.run stack performed fuel = some (g1, P) →
      ∃ newP,
        P = newP ++ performed ∧
        newP.Nodup ∧
        (∀ n ∈ newP, n < g.steps.length ∧ g.is_calculated n = false) ∧
        g1.steps.length = g.steps.length ∧
        (∀ j, j ∉ newP → g1.steps[j]? = g.steps[j]?) ∧
        (∀ (j : Nat) (st : Step0), g.steps[j]? = some st →
          ∃ st1, g1.steps[j]? = some st1 ∧ st1.operator = st.operator ∧
            st1.inputs = st.inputs) ∧
        (∀ n ∈ newP, g1.is_calculated n = true) ∧
        (∀ e ∈ stack, g1.is_calculated e.1 = true) := by
  induction fuel with
  | zero =>
    intro g stack performed g1 P hwf hok hrun
    cases stack with
    | nil =>
      simp only [Graph0.run, Option.some.injEq, Prod.mk.injEq] at hrun
      obtain ⟨rfl, rfl⟩ := hrun
      exact ⟨[], by simp, List.nodup_nil, by simp, rfl, fun j _ => rfl,
        fun j st h => ⟨st, h, rfl, rfl⟩, by simp, by simp⟩
    | cons e rest =>
      obtain ⟨sid, act⟩ := e
      cases act <;> simp [Graph0.run] at hrun
  | succ fuel ih =>
    intro g stack performed g1 P hwf hok hrun
    cases stack with
    | nil =>
      simp only [Graph0.run, Option.some.injEq, Prod.mk.injEq] at hrun
      obtain ⟨rfl, rfl⟩ := hrun
      exact ⟨[], by simp, List.nodup_nil, by simp, rfl, fun j _ => rfl,
        fun j st h => ⟨st, h, rfl, rfl⟩, by simp, by simp⟩
    | cons e rest =>
      obtain ⟨sid, act⟩ := e
      obtain ⟨hrange, hperf, hbelow, hokrest⟩ := hok
      cases act with
      | fetch =>
        simp only [Graph0.run] at hrun
        cases hl : g.steps[sid]? with
        | none =>
          simp only [hl] at hrun
          exact Option.noConfusion hrun
        | some st =>
          simp only [hl] at hrun
          by_cases hc : st.outputs.isSome
          · rw [if_pos hc] at hrun
            obtain ⟨newP, h1, h2, h3, h4, h5, h6, h7, h8⟩ :=
              ih g rest performed g1 P hwf hokrest hrun
            refine ⟨newP, h1, h2, h3, h4, h5, h6, h7, ?_⟩
            intro e he
            rcases List.mem_cons.mp he with rfl | he'
            · have hnot : sid ∉ newP := by
                intro hmem
                have hfalse := (h3 sid hmem).2
                unfold Graph0.is_calculated at hfalse
                simp only [hl] at hfalse
                rw [hc] at hfalse
                cases hfalse
              show g1.is_calculated sid = true
              unfold Graph0.is_calculated
              rw [h5 sid hnot, hl]
              exact hc
            · exact h8 e he'
          · rw [if_neg hc] at hrun
            have hcfalse : st.outputs.isSome = false :=
              Bool.eq_false_iff.mpr hc
            have hAmem : ∀ x ∈ (st.inputs.map
                (fun a => (a.step_id, Action0.fetch))).reverse,
                ∃ a ∈ st.inputs, x = (a.step_id, Action0.fetch) := by
              intro x hx
              rw [List.mem_reverse, List.mem_map] at hx
              obtain ⟨a, ha, rfl⟩ := hx
              exact ⟨a, ha, rfl⟩
            have hokS : StackOk g
                ((st.inputs.map (fun a => (a.step_id, Action0.fetch))).reverse
                  ++ (sid, Action0.perform) :: rest) := by
              apply stackok_append_fetches
              · intro x hx
                obtain ⟨a, _, rfl⟩ := hAmem x hx
                rfl
              · intro x hx
                obtain ⟨a, ha, rfl⟩ := hAmem x hx
                exact Nat.lt_trans (hwf sid st hl a ha) hrange
              · intro x hx p hp hpf
                obtain ⟨a, ha, rfl⟩ := hAmem x hx
                have hax : a.step_id < sid := hwf sid st hl a ha
                rcases List.mem_cons.mp hp with rfl | hp'
                · exact hax
                · exact Nat.lt_trans hax (hbelow p hp' hpf)
              · refine ⟨hrange, ?_, hbelow, hokrest⟩
                intro _
                unfold Graph0.is_calculated
                rw [hl]
                exact hcfalse
            obtain ⟨newP, h1, h2, h3, h4, h5, h6, h7, h8⟩ :=
              ih g _ performed g1 P hwf hokS hrun
            refine ⟨newP, h1, h2, h3, h4, h5, h6, h7, ?_⟩
            intro e he
            rcases List.mem_cons.mp he with rfl | he'
            · exact h8 (sid, Action0.perform)
                (List.mem_append_right _ (List.mem_cons_self _ _))
            · exact h8 e (List.mem_append_right _ (List.mem_cons_of_mem _ he'))
      | perform =>
        simp only [Graph0.run] at hrun
        cases hl : g.steps[sid]? with
        | none =>
          simp only [hl] at hrun
          exact Option.noConfusion hrun
        | some st =>
          simp only [hl] at hrun
          cases hgath : g.gather st.inputs with
          | none =>
            simp only [hgath] at hrun
            exact Option.noConfusion hrun
          | some ins =>
            simp only [hgath] at hrun
            cases hpf : st.operator.perform ins with
            | error e0 =>
              simp only [hpf] at hrun
              exact Option.noConfusion hrun
            | ok outs =>
              simp only [hpf] at hrun
              have hwf' : (g.set_outputs sid outs).Wf :=
                wf_set_outputs sid outs hwf
              have hlen' : (g.set_outputs sid outs).steps.length =
                  g.steps.length := set_outputs_length g sid outs
              have hne : ∀ p ∈ rest, p.2 = Action0.perform → p.1 ≠ sid := by
                intro p hp hperf2 heq
                have := hbelow p hp hperf2
                rw [heq] at this
                exact Nat.lt_irrefl sid this
              have hok' : StackOk (g.set_outputs sid outs) rest :=
                stackok_transport hokrest hlen'
                  (fun p hp hperf2 =>
                    is_calculated_set_ne g sid outs p.1 (hne p hp hperf2))
              obtain ⟨newP', h1, h2, h3, h4, h5, h6, h7, h8⟩ :=
                ih (g.set_outputs sid outs) rest (sid :: performed) g1 P
                  hwf' hok' hrun
              have huncal : g.is_calculated sid = false := hperf rfl
              have hcal' : (g.set_outputs sid outs).is_calculated sid = true :=
                is_calculated_set_self outs hl
              have hsid_not : sid ∉ newP' := by
                intro hmem
                have := (h3 sid hmem).2
                rw [hcal'] at this
                cases this
              refine ⟨newP' ++ [sid], ?_, ?_, ?_, ?_, ?_, ?_, ?_, ?_⟩
              · rw [h1]
                simp
              · rw [List.nodup_append]
                refine ⟨h2, by simp, ?_⟩
                intro n hn hmem
                simp only [List.mem_singleton] at hmem
                exact hsid_not (hmem ▸ hn)
              · intro n hn
                rcases List.mem_append.mp hn with hn' | hn'
                · have hps := h3 n hn'
                  have hne' : n ≠ sid := fun heq => hsid_not (heq ▸ hn')
                  refine ⟨by rw [← hlen']; exact hps.1, ?_⟩
                  rw [← is_calculated_set_ne g sid outs n hne']
                  exact hps.2
                · simp only [List.mem_singleton] at hn'
                  subst hn'
                  exact ⟨hrange, huncal⟩
              · rw [h4, hlen']
              · intro j hj
                have hj1 : j ∉ newP' := fun h =>
                  hj (List.mem_append.mpr (Or.inl h))
                have hj2 : j ≠ sid := fun h => hj (by simp [h])
                rw [h5 j hj1]
                exact set_outputs_lookup_ne g sid outs j hj2
              · intro j st0 hst0
                by_cases hj : j = sid
                · subst hj
                  have hmid : (g.set_outputs j outs).steps[j]? =
                      some ⟨st0.operator, st0.inputs, some outs⟩ :=
                    set_outputs_lookup_self outs hst0
                  obtain ⟨st1, hh1, hh2, hh3⟩ := h6 j _ hmid
                  exact ⟨st1, hh1, hh2, hh3⟩
                · have hmid : (g.set_outputs sid outs).steps[j]? = some st0 := by
                    rw [set_outputs_lookup_ne g sid outs j hj]
                    exact hst0
                  exact h6 j st0 hmid
              · intro n hn
                rcases List.mem_append.mp hn with hn' | hn'
                · exact h7 n hn'
                · simp only [List.mem_singleton] at hn'
                  subst hn'
                  show g1.is_calculated n = true
                  unfold Graph0.is_calculated at hcal' ⊢
                  rw [h5 n hsid_not]
                  exact hcal'
              · intro e he
                rcases List.mem_cons.mp he with rfl | he'
                · show g1.is_calculated sid = true
                  unfold Graph0.is_calculated at hcal' ⊢
                  rw [h5 sid hsid_not]
                  exact hcal'
                · exact h8 e he'

theorem check_address_ok_inv {g : Graph0} {a : NodeAddress}
    (h : g.check_address a = .ok ()) :
    ∃ st, g.steps[a.step_id]? = some st ∧
      a.output_id < st.operator.output_size := by
  unfold Graph0.check_address at h
  cases hl : g.steps[a.step_id]? with
  | none => rw [hl] at h; exact absurd h (by simp)
  | some st =>
    simp only [hl] at h
    refine ⟨st, rfl, ?_⟩
    by_cases ho : st.operator.output_size ≤ a.output_id
    · rw [if_pos ho] at h; exact absurd h (by simp)
    · exact Nat.lt_of_not_le ho

theorem check_address_ok_of {g : Graph0} {a : NodeAddress} {st : Step0}
    (hl : g.steps[a.step_id]? = some st)
    (ho : a.output_id < st.operator.output_size) :
    g.check_address a = .ok () := by
  unfold Graph0.check_address
  simp only [hl]
  rw [if_neg (Nat.not_le_of_lt ho)]

theorem run_calculated_target {g : Graph0} {sid : Nat} {st : Step0}
    (fuel : Nat) (hl : g.steps[sid]? = some st)
    (hc : st.outputs.isSome = true) :
    g.run [(sid, Action0.fetch)] [] (fuel + 1) = some (g, []) := by
  simp only [Graph0.run, hl, hc, if_pos]

theorem fuel_succ (g : Graph0) : ∃ k, g.fuel = k + 1 := by
  refine ⟨(g.steps.length + 1) * (g.steps.length + 2) - 1, ?_⟩
  unfold Graph0.fuel
  have : 0 < (g.steps.length + 1) * (g.steps.length + 2) :=
    Nat.mul_pos (Nat.succ_pos _) (Nat.succ_pos _)
  omega

/-- C4: for a well-formed graph (the topological invariant of C5) and any
target on which calculate succeeds, the automaton run performed a
duplicate-free set of previously unevaluated steps (so each operator ran at
most once, and an assigned output is never recomputed); re-running the
automaton on the result performs nothing at all, and a second calculate on
the same target returns the same graph and an equal Array. -/
theorem c4_calculate_at_most_once (g : Graph0) (t : NodeAddress)
    (hwf : Graph0.Wf g) (g1 : Graph0) (a : Arr)
    (h : g.calculate t = .ok (g1, a)) :
    (∃ P, g.run [(t.step_id, Action0.fetch)] [] g.fuel = some (g1, P) ∧
       P.Nodup ∧
       (∀ n ∈ P, n < g.steps.length ∧ g.is_calculated n = false)) ∧
    g1.run [(t.step_id, Action0.fetch)] [] g1.fuel = some (g1, []) ∧
    g1.calculate t = .ok (g1, a) := by
  unfold Graph0.calculate at h
  cases hchk : g.check_address t with
  | error e => rw [hchk] at h; exact absurd h (by simp)
  | ok u =>
    cases u
    rw [hchk] at h
    cases hrun : g.run [(t.step_id, Action0.fetch)] [] g.fuel with
    | none => simp only [hrun] at h; exact Outcome.noConfusion h
    | some gp =>
      obtain ⟨g2, P⟩ := gp
      simp only [hrun] at h
      cases hv : g2.get_value t with
      | none => simp only [hv] at h; exact Outcome.noConfusion h
      | some a2 =>
        simp only [hv, Outcome.ok.injEq, Prod.mk.injEq] at h
        obtain ⟨hg2, ha2⟩ := h
        subst hg2
        subst ha2
        obtain ⟨st, hl, ho⟩ := check_address_ok_inv hchk
        have hok : StackOk g [(t.step_id, Action0.fetch)] := by
          refine ⟨(List.getElem?_eq_some.mp hl).1, ?_, ?_, trivial⟩
          · intro hp; cases hp
          · intro p hp; cases hp
        obtain ⟨newP, h1, h2, h3, h4, h5, h6, h7, h8⟩ :=
          run_spec g.fuel g [(t.step_id, Action0.fetch)] [] g2 P hwf hok hrun
        have hP : P = newP := by rw [h1, List.append_nil]
        subst hP
        have hcal1 : g2.is_calculated t.step_id = true :=
          h8 (t.step_id, Action0.fetch) (List.mem_cons_self _ _)
        have hex : ∃ st1, g2.steps[t.step_id]? = some st1 ∧
            st1.outputs.isSome = true := by
          unfold Graph0.is_calculated at hcal1
          cases hl1 : g2.steps[t.step_id]? with
          | none => rw [hl1] at hcal1; cases hcal1
          | some st1 => rw [hl1] at hcal1; exact ⟨st1, rfl, hcal1⟩
        obtain ⟨st1, hl1, hc1⟩ := hex
        have hrun2 : g2.run [(t.step_id, Action0.fetch)] [] g2.fuel =
            some (g2, []) := by
          obtain ⟨k, hk⟩ := fuel_succ g2
          rw [hk]
          exact run_calculated_target k hl1 hc1
        refine ⟨?_, hrun2, ?_⟩
        · exact ⟨P, rfl, h2, h3⟩
        have hchk1 : g2.check_address t = .ok () := by
          obtain ⟨st1b, hl1b, hop, hin⟩ := h6 t.step_id st hl
          apply check_address_ok_of hl1b
          rw [hop]
          exact ho
        unfold Graph0.calculate
        simp only [hchk1, hrun2, hv]

theorem wf_of_all (g : Graph0)
    (h : (List.range g.steps.length).all (fun i =>
      match g.steps[i]? with
      | some st => st.inputs.all (fun a => decide (a.step_id < i))
      | none => true) = true) : Graph0.Wf g := by
  intro i st hl a ha
  have hi : i < g.steps.length := (List.getElem?_eq_some.mp hl).1
  have h2 := List.all_eq_true.mp h i (List.mem_range.mpr hi)
  simp only [hl] at h2
  exact of_decide_eq_true (List.all_eq_true.mp h2 a ha)

/-- The C4 witness graph: two constants and their sum, unevaluated. -/
def c4_g : Graph0 :=
  ⟨[⟨.constant (Arr.scalar_f32 0 1), [], none⟩,
    ⟨.constant (Arr.scalar_f32 0 2), [], none⟩,
    ⟨.add, [⟨0, 0⟩, ⟨1, 0⟩], none⟩]⟩

/-- c4_g after calculate of its sum step: every ancestor evaluated once. -/
def c4_g1 : Graph0 :=
  ⟨[⟨.constant (Arr.scalar_f32 0 1), [], some [Arr.scalar_f32 0 1]⟩,
    ⟨.constant (Arr.scalar_f32 0 2), [], some [Arr.scalar_f32 0 2]⟩,
    ⟨.add, [⟨0, 0⟩, ⟨1, 0⟩], some [⟨⟨[]⟩, 0, [3]⟩]⟩]⟩

/-- C4 witness: the concrete run on c4_g performs nodup, previously
unevaluated steps; the rerun performs nothing and calculate returns the same
value again. -/
theorem c4_witness :
    Graph0.Wf c4_g ∧
    ((∃ P, c4_g.run [(2, Action0.fetch)] [] c4_g.fuel = some (c4_g1, P) ∧
        P.Nodup ∧
        (∀ n ∈ P, n < c4_g.steps.length ∧ c4_g.is_calculated n = false)) ∧
      c4_g1.run [(2, Action0.fetch)] [] c4_g1.fuel = some (c4_g1, []) ∧
      c4_g1.calculate ⟨2, 0⟩ = .ok (c4_g1, ⟨⟨[]⟩, 0, [3]⟩)) :=
  have hwf : Graph0.Wf c4_g := wf_of_all c4_g (by decide)
  ⟨hwf, c4_calculate_at_most_once c4_g ⟨2, 0⟩ hwf c4_g1 ⟨⟨[]⟩, 0, [3]⟩
    (by decide)⟩

/-
Claim C3: the general contract of grad on one graph.  The development below
works relative to a base graph g0 in which y and the xs live; grad only
appends, captured by the Extends relation.
-/

/-- One graph extends another: the old steps are an unchanged prefix. -/
def Extends (g g' : Graph) : Prop :=
  g.num_steps ≤ g'.num_steps ∧
  ∀ j, j < g.num_steps → g'.steps[j]? = g.steps[j]?

theorem extends_refl (g : Graph) : Extends g g :=
  ⟨Nat.le_refl _, fun _ _ => rfl⟩

theorem Extends.trans {g1 g2 g3 : Graph} (h1 : Extends g1 g2)
    (h2 : Extends g2 g3) : Extends g1 g3 :=
  ⟨Nat.le_trans h1.1 h2.1,
   fun j hj => (h2.2 j (Nat.lt_of_lt_of_le hj h1.1)).trans (h1.2 j hj)⟩

theorem extends_append (g : Graph) (st : Step) :
    Extends g ⟨g.steps ++ [st]⟩ := by
  constructor
  · simp [Graph.num_steps]
  · intro j hj
    exact List.getElem?_append_left hj

theorem Extends.node_shape_eq {g g' : Graph} (h : Extends g g') {j : Nat}
    (hj : j < g.num_steps) : g'.node_shape j = g.node_shape j := by
  unfold Graph.node_shape Graph.get_step
  rw [h.2 j hj]

theorem Extends.node_hardware_eq {g g' : Graph} (h : Extends g g') {j : Nat}
    (hj : j < g.num_steps) : g'.node_hardware j = g.node_hardware j := by
  unfold Graph.node_hardware Graph.get_step
  rw [h.2 j hj]

/-- A gradient path from y down to a node: y itself, or an input of a step
with a gradient builder that a gradient path reaches.  grad assigns a slot to
exactly the nodes with such a path (the soundness direction, proved below, is
what C3 needs: no path means an untouched slot). -/
inductive GradPath (g : Graph) (y : Nat) : Nat → Prop where
  | refl : GradPath g y y
  | step {s x : Nat} {st : Step} : GradPath g y s → g.steps[s]? = some st →
      st.operator.get_gradient_fn.isSome → x ∈ st.inputs → GradPath g y x

/-- The data recorded for a slot entry or a freshly built gradient pair
(x, gx): x is a base node with a gradient path from y, and gx is a node of
the current graph with the shape and hardware of x. -/
def PairOk (g0 : Graph) (y : Nat) (g : Graph) (pq : Nat × Nat) : Prop :=
  pq.1 < g0.num_steps ∧ GradPath g0 y pq.1 ∧ pq.2 < g.num_steps ∧
  g.node_shape pq.2 = g0.node_shape pq.1 ∧
  g.node_hardware pq.2 = g0.node_hardware pq.1

/-- The invariant of the gradient slot table. -/
def SlotsInv (g0 : Graph) (y : Nat) (g : Graph)
    (slots : List (Option Nat)) : Prop :=
  ∀ s n, slots.getD s none = some n → PairOk g0 y g (s, n)

theorem pairok_mono {g0 : Graph} {y : Nat} {g g' : Graph} {pq : Nat × Nat}
    (hext : Extends g g') (h : PairOk g0 y g pq) : PairOk g0 y g' pq :=
  ⟨h.1, h.2.1, Nat.lt_of_lt_of_le h.2.2.1 hext.1,
   (hext.node_shape_eq h.2.2.1).trans h.2.2.2.1,
   (hext.node_hardware_eq h.2.2.1).trans h.2.2.2.2⟩

theorem slotsinv_mono {g0 : Graph} {y : Nat} {g g' : Graph}
    {slots : List (Option Nat)} (hext : Extends g g')
    (h : SlotsInv g0 y g slots) : SlotsInv g0 y g' slots :=
  fun s n hs => pairok_mono hext (h s n hs)

theorem node_shape_inv {g : Graph} {i : Nat} {sh : Shape}
    (h : g.node_shape i = some sh) :
    ∃ st, g.steps[i]? = some st ∧ st.output.shape = sh := by
  unfold Graph.node_shape Graph.get_step at h
  cases hl : g.steps[i]? with
  | none => rw [hl] at h; exact absurd h (by simp)
  | some st =>
    rw [hl] at h
    exact ⟨st, rfl, by simpa using h⟩

theorem node_hardware_inv {g : Graph} {i : Nat} {hw : Nat}
    (h : g.node_hardware i = some hw) :
    ∃ st, g.steps[i]? = some st ∧ st.output.hardware = hw := by
  unfold Graph.node_hardware Graph.get_step at h
  cases hl : g.steps[i]? with
  | none => rw [hl] at h; exact absurd h (by simp)
  | some st =>
    rw [hl] at h
    exact ⟨st, rfl, by simpa using h⟩

theorem node_shape_of_lt {g : Graph} {i : Nat} (h : i < g.num_steps) :
    ∃ sh, g.node_shape i = some sh := by
  unfold Graph.node_shape Graph.get_step
  cases hl : g.steps[i]? with
  | none =>
    rw [List.getElem?_eq_none_iff] at hl
    exact absurd h (Nat.not_lt_of_le hl)
  | some st => exact ⟨st.output.shape, rfl⟩

theorem node_hardware_of_lt {g : Graph} {i : Nat} (h : i < g.num_steps) :
    ∃ hw, g.node_hardware i = some hw := by
  unfold Graph.node_hardware Graph.get_step
  cases hl : g.steps[i]? with
  | none =>
    rw [List.getElem?_eq_none_iff] at hl
    exact absurd h (Nat.not_lt_of_le hl)
  | some st => exact ⟨st.output.hardware, rfl⟩

theorem node_fill_ok (g : Graph) (hw : Nat) (sh : Shape) (v : Rat) :
    g.node_fill hw sh v =
      some (⟨g.steps ++ [⟨.fill hw sh v, [], .unassigned sh hw⟩]⟩,
        g.num_steps) := by
  rfl

theorem node_neg_ok {g : Graph} {a : Nat} {sh : Shape} {hw : Nat}
    (hsa : g.node_shape a = some sh) (hha : g.node_hardware a = some hw) :
    g.node_neg a =
      some (⟨g.steps ++ [⟨.neg, [a], .unassigned sh hw⟩]⟩, g.num_steps) := by
  obtain ⟨sta, hla, hsha⟩ := node_shape_inv hsa
  obtain ⟨sta2, hla2, hha2⟩ := node_hardware_inv hha
  rw [hla] at hla2
  cases hla2
  unfold Graph.node_neg Graph.add_step
  simp only [List.length_cons, List.length_nil, Op.input_size,
    List.mapM_cons, List.mapM_nil, hla, Option.pure_def, Option.bind_eq_bind,
    Option.some_bind, Op.perform_shape, Op.perform_hardware, List.map_cons,
    List.map_nil, hsha, hha2]
  simp [Shape.elementwise, bind, Except.bind, Except.toOption]

theorem add_step_binary_ok {g : Graph} {op : Op} {a b : Nat} {sh : Shape}
    {hw : Nat}
    (hop : op = .add ∨ op = .sub ∨ op = .mul ∨ op = .div)
    (hsa : g.node_shape a = some sh) (hsb : g.node_shape b = some sh)
    (hha : g.node_hardware a = some hw) (hhb : g.node_hardware b = some hw) :
    g.add_step op [a, b] =
      .ok (⟨g.steps ++ [⟨op, [a, b], .unassigned sh hw⟩]⟩, g.num_steps) := by
  obtain ⟨sta, hla, hsha⟩ := node_shape_inv hsa
  obtain ⟨sta2, hla2, hha2⟩ := node_hardware_inv hha
  rw [hla] at hla2
  cases hla2
  obtain ⟨stb, hlb, hshb⟩ := node_shape_inv hsb
  obtain ⟨stb2, hlb2, hhb2⟩ := node_hardware_inv hhb
  rw [hlb] at hlb2
  cases hlb2
  unfold Graph.add_step
  rcases hop with rfl | rfl | rfl | rfl <;>
    simp [Op.input_size, List.mapM, List.mapM.loop, hla, hlb,
      Op.perform_shape, Op.perform_hardware, hsha, hshb, hha2, hhb2,
      Shape.elementwise, bind, Except.bind]

theorem node_add_ok {g : Graph} {a b : Nat} {sh : Shape} {hw : Nat}
    (hsa : g.node_shape a = some sh) (hsb : g.node_shape b = some sh)
    (hha : g.node_hardware a = some hw) (hhb : g.node_hardware b = some hw) :
    g.node_add a b =
      some (⟨g.steps ++ [⟨.add, [a, b], .unassigned sh hw⟩]⟩,
        g.num_steps) := by
  unfold Graph.node_add
  rw [add_step_binary_ok (Or.inl rfl) hsa hsb hha hhb]
  rfl

theorem node_mul_ok {g : Graph} {a b : Nat} {sh : Shape} {hw : Nat}
    (hsa : g.node_shape a = some sh) (hsb : g.node_shape b = some sh)
    (hha : g.node_hardware a = some hw) (hhb : g.node_hardware b = some hw) :
    g.node_mul a b =
      some (⟨g.steps ++ [⟨.mul, [a, b], .unassigned sh hw⟩]⟩,
        g.num_steps) := by
  unfold Graph.node_mul
  rw [add_step_binary_ok (Or.inr (Or.inr (Or.inl rfl))) hsa hsb hha hhb]
  rfl

theorem node_div_ok {g : Graph} {a b : Nat} {sh : Shape} {hw : Nat}
    (hsa : g.node_shape a = some sh) (hsb : g.node_shape b = some sh)
    (hha : g.node_hardware a = some hw) (hhb : g.node_hardware b = some hw) :
    g.node_div a b =
      some (⟨g.steps ++ [⟨.div, [a, b], .unassigned sh hw⟩]⟩,
        g.num_steps) := by
  unfold Graph.node_div
  rw [add_step_binary_ok (Or.inr (Or.inr (Or.inr rfl))) hsa hsb hha hhb]
  rfl

theorem appended_node_shape (g : Graph) (op : Op) (inputs : List Nat)
    (sh : Shape) (hw : Nat) :
    (Graph.mk (g.steps ++ [⟨op, inputs, .unassigned sh hw⟩])).node_shape
      g.num_steps = some sh := by
  unfold Graph.node_shape Graph.get_step Graph.num_steps
  simp [List.getElem?_concat_length, Output.shape]

theorem appended_node_hardware (g : Graph) (op : Op) (inputs : List Nat)
    (sh : Shape) (hw : Nat) :
    (Graph.mk (g.steps ++ [⟨op, inputs, .unassigned sh hw⟩])).node_hardware
      g.num_steps = some hw := by
  unfold Graph.node_hardware Graph.get_step Graph.num_steps
  simp [List.getElem?_concat_length, Output.hardware]

theorem getD_set_self {slots : List (Option Nat)} {x : Nat}
    (v : Option Nat) (hx : x < slots.length) :
    (slots.set x v).getD x none = v := by
  rw [List.getD_eq_getElem?_getD, List.getElem?_set_eq_of_lt v hx]
  rfl

theorem getD_set_ne (slots : List (Option Nat)) (x : Nat) (v : Option Nat)
    (s : Nat) (h : s ≠ x) :
    (slots.set x v).getD s none = slots.getD s none := by
  rw [List.getD_eq_getElem?_getD, List.getD_eq_getElem?_getD,
    List.getElem?_set_ne (fun he => h he.symm)]

theorem getD_replicate (n s : Nat) :
    (List.replicate n (none : Option Nat)).getD s none = none := by
  rw [List.getD_eq_getElem?_getD]
  cases h : (List.replicate n (none : Option Nat))[s]? with
  | none => rfl
  | some v =>
    have := List.getElem?_mem h
    rw [List.eq_of_mem_replicate this]
    rfl

theorem integrate_spec (g0 : Graph) (y : Nat) :
    ∀ (pairs : List (Nat × Nat)) (g : Graph) (slots : List (Option Nat)),
      slots.length = g0.num_steps →
      SlotsInv g0 y g slots →
      (∀ pq ∈ pairs, PairOk g0 y g pq) →
      ∃ g2 slots2, g.integrate slots pairs = some (g2, slots2) ∧
        Extends g g2 ∧ slots2.length = slots.length ∧
        SlotsInv g0 y g2 slots2 := by
  intro pairs
  induction pairs with
  | nil =>
    intro g slots hlen hinv _
    exact ⟨g, slots, rfl, extends_refl g, rfl, hinv⟩
  | cons pq rest ih =>
    intro g slots hlen hinv hp
    obtain ⟨x, gx⟩ := pq
    obtain ⟨hx0, hpath, hgx, hgxsh, hgxhw⟩ := hp (x, gx) (List.mem_cons_self _ _)
    cases hslot : slots.getD x none with
    | none =>
      have hlen2 : (slots.set x (some gx)).length = g0.num_steps := by
        rw [List.length_set]; exact hlen
      have hinv2 : SlotsInv g0 y g (slots.set x (some gx)) := by
        intro s n hs
        by_cases hsx : s = x
        · subst hsx
          rw [getD_set_self _ (by rw [hlen]; exact hx0)] at hs
          cases hs
          exact ⟨hx0, hpath, hgx, hgxsh, hgxhw⟩
        · rw [getD_set_ne slots x _ s hsx] at hs
          exact hinv s n hs
      obtain ⟨g2, slots2, hrun, hext, hlen3, hinv3⟩ :=
        ih g (slots.set x (some gx)) hlen2 hinv2
          (fun q hq => hp q (List.mem_cons_of_mem _ hq))
      refine ⟨g2, slots2, ?_, hext, ?_, hinv3⟩
      · show Graph.integrate g slots ((x, gx) :: rest) = some (g2, slots2)
        unfold Graph.integrate
        simp only [hslot]
        exact hrun
      · rw [hlen3, List.length_set]
    | some prev =>
      obtain ⟨hxp, hpathp, hprevlt, hprevsh, hprevhw⟩ := hinv x prev hslot
      obtain ⟨shx, hshx⟩ := node_shape_of_lt hx0
      obtain ⟨hwx, hhwx⟩ := node_hardware_of_lt hx0
      have h1 : g.node_shape prev = some shx := by rw [hprevsh, hshx]
      have h2 : g.node_shape gx = some shx := by rw [hgxsh, hshx]
      have h3 : g.node_hardware prev = some hwx := by rw [hprevhw, hhwx]
      have h4 : g.node_hardware gx = some hwx := by rw [hgxhw, hhwx]
      have hadd := node_add_ok h1 h2 h3 h4
      have hext1 : Extends g
          ⟨g.steps ++ [⟨.add, [prev, gx], .unassigned shx hwx⟩]⟩ :=
        extends_append g _
      have hlen2 : (slots.set x (some g.num_steps)).length = g0.num_steps := by
        rw [List.length_set]; exact hlen
      have hinv2 : SlotsInv g0 y
          ⟨g.steps ++ [⟨.add, [prev, gx], .unassigned shx hwx⟩]⟩
          (slots.set x (some g.num_steps)) := by
        intro s n hs
        by_cases hsx : s = x
        · subst hsx
          rw [getD_set_self _ (by rw [hlen]; exact hx0)] at hs
          cases hs
          refine ⟨hx0, hpath, ?_, ?_, ?_⟩
          · show g.num_steps <
              (Graph.mk (g.steps ++
                [⟨.add, [prev, gx], .unassigned shx hwx⟩])).num_steps
            simp [Graph.num_steps]
          · rw [appended_node_shape, hshx]
          · rw [appended_node_hardware, hhwx]
        · rw [getD_set_ne slots x _ s hsx] at hs
          exact pairok_mono hext1 (hinv s n hs)
      obtain ⟨g2, slots2, hrun, hext, hlen3, hinv3⟩ :=
        ih ⟨g.steps ++ [⟨.add, [prev, gx], .unassigned shx hwx⟩]⟩
          (slots.set x (some g.num_steps)) hlen2 hinv2
          (fun q hq => pairok_mono hext1 (hp q (List.mem_cons_of_mem _ hq)))
      refine ⟨g2, slots2, ?_, hext1.trans hext, ?_, hinv3⟩
      · show Graph.integrate g slots ((x, gx) :: rest) = some (g2, slots2)
        unfold Graph.integrate
        simp only [hslot, hadd, Option.bind_eq_bind, Option.some_bind]
        exact hrun
      · rw [hlen3, List.length_set]

/-- The shape discipline that add_step establishes for every stored step:
leaves have no inputs; Neg propagates shape and hardware from its input; the
binary operators require both inputs to share the shape and hardware of the
step itself (Shape::elementwise plus the default perform_hardware). -/
def Step.WfAt (g : Graph) (i : Nat) (st : Step) : Prop :=
  match st.operator with
  | .constant _ => st.inputs = []
  | .fill _ _ _ => st.inputs = []
  | .neg => ∃ j, st.inputs = [j] ∧ j < i ∧
      g.node_shape j = some st.output.shape ∧
      g.node_hardware j = some st.output.hardware
  | _ => ∃ j k, st.inputs = [j, k] ∧ j < i ∧ k < i ∧
      g.node_shape j = some st.output.shape ∧
      g.node_shape k = some st.output.shape ∧
      g.node_hardware j = some st.output.hardware ∧
      g.node_hardware k = some st.output.hardware

/-- A graph every step of which satisfies the add_step discipline. -/
def Graph.Wf (g : Graph) : Prop :=
  ∀ (i : Nat) (st : Step), g.steps[i]? = some st → Step.WfAt g i st

theorem node_shape_of_step {g : Graph} {s : Nat} {st : Step}
    (h : g.steps[s]? = some st) :
    g.node_shape s = some st.output.shape := by
  simp [Graph.node_shape, Graph.get_step, h]

theorem node_hardware_of_step {g : Graph} {s : Nat} {st : Step}
    (h : g.steps[s]? = some st) :
    g.node_hardware s = some st.output.hardware := by
  simp [Graph.node_hardware, Graph.get_step, h]


theorem grad_perform_spec {g0 : Graph} {y : Nat} {k : GradFn} {st : Step}
    {s gy : Nat} {g : Graph}
    (hst0 : g0.steps[s]? = some st)
    (hwfat : Step.WfAt g0 s st)
    (hk : st.operator.get_gradient_fn = some k)
    (hpath : GradPath g0 y s)
    (hext : Extends g0 g)
    (hgy_lt : gy < g.num_steps)
    (hgy_sh : g.node_shape gy = g0.node_shape s)
    (hgy_hw : g.node_hardware gy = g0.node_hardware s) :
    ∃ g2 gxs, k.perform g st.inputs s gy = some (g2, gxs) ∧
      Extends g g2 ∧
      ∀ pq ∈ st.inputs.zip gxs, PairOk g0 y g2 pq := by
  have hs : s < g0.num_steps := (List.getElem?_eq_some.mp hst0).1
  have hs_sh : g0.node_shape s = some st.output.shape :=
    node_shape_of_step hst0
  have hs_hw : g0.node_hardware s = some st.output.hardware :=
    node_hardware_of_step hst0
  have hgy_sh2 : g.node_shape gy = some st.output.shape := by
    rw [hgy_sh, hs_sh]
  have hgy_hw2 : g.node_hardware gy = some st.output.hardware := by
    rw [hgy_hw, hs_hw]
  have hksome : st.operator.get_gradient_fn.isSome := by rw [hk]; rfl
  have hmem_path : ∀ x ∈ st.inputs, GradPath g0 y x := fun x hx =>
    GradPath.step hpath hst0 hksome hx
  cases hop : st.operator with
  | constant v =>
    rw [hop] at hk
    exact absurd hk (by simp [Op.get_gradient_fn])
  | fill hw2 sh2 v =>
    rw [hop] at hk
    exact absurd hk (by simp [Op.get_gradient_fn])
  | neg =>
    rw [hop] at hk
    simp only [Op.get_gradient_fn, Option.some.injEq] at hk
    subst hk
    simp only [Step.WfAt, hop] at hwfat
    obtain ⟨j, hin, hj, hshj, hhwj⟩ := hwfat
    have hneg := node_neg_ok hgy_sh2 hgy_hw2
    refine ⟨⟨g.steps ++ [⟨.neg, [gy],
        .unassigned st.output.shape st.output.hardware⟩]⟩,
      [g.num_steps], ?_, extends_append g _, ?_⟩
    · simp only [GradFn.perform, hneg, Option.bind_eq_bind, Option.some_bind]
    · intro pq hpq
      rw [hin] at hpq
      simp only [List.zip_cons_cons, List.zip_nil_right, List.mem_cons,
        List.not_mem_nil, or_false] at hpq
      subst hpq
      refine ⟨Nat.lt_trans hj hs, hmem_path j (by simp [hin]), ?_, ?_, ?_⟩
      · simp [Graph.num_steps]
      · rw [appended_node_shape, hshj]
      · rw [appended_node_hardware, hhwj]
  | add =>
    rw [hop] at hk
    simp only [Op.get_gradient_fn, Option.some.injEq] at hk
    subst hk
    simp only [Step.WfAt, hop] at hwfat
    obtain ⟨j, k2, hin, hj, hk2, hshj, hshk, hhwj, hhwk⟩ := hwfat
    refine ⟨g, [gy, gy], rfl, extends_refl g, ?_⟩
    intro pq hpq
    rw [hin] at hpq
    simp only [List.zip_cons_cons, List.zip_nil_right, List.mem_cons,
      List.not_mem_nil, or_false] at hpq
    rcases hpq with rfl | rfl
    · exact ⟨Nat.lt_trans hj hs, hmem_path j (by rw [hin]; simp), hgy_lt,
        by rw [hgy_sh2, hshj], by rw [hgy_hw2, hhwj]⟩
    · exact ⟨Nat.lt_trans hk2 hs, hmem_path k2 (by rw [hin]; simp), hgy_lt,
        by rw [hgy_sh2, hshk], by rw [hgy_hw2, hhwk]⟩
  | sub =>
    rw [hop] at hk
    simp only [Op.get_gradient_fn, Option.some.injEq] at hk
    subst hk
    simp only [Step.WfAt, hop] at hwfat
    obtain ⟨j, k2, hin, hj, hk2, hshj, hshk, hhwj, hhwk⟩ := hwfat
    have hneg := node_neg_ok hgy_sh2 hgy_hw2
    refine ⟨⟨g.steps ++ [⟨.neg, [gy],
        .unassigned st.output.shape st.output.hardware⟩]⟩,
      [gy, g.num_steps], ?_, extends_append g _, ?_⟩
    · simp only [GradFn.perform, hneg, Option.bind_eq_bind, Option.some_bind]
    · intro pq hpq
      rw [hin] at hpq
      simp only [List.zip_cons_cons, List.zip_nil_right, List.mem_cons,
        List.not_mem_nil, or_false] at hpq
      rcases hpq with rfl | rfl
      · refine ⟨Nat.lt_trans hj hs, hmem_path j (by rw [hin]; simp),
          Nat.lt_trans hgy_lt (by simp [Graph.num_steps]), ?_, ?_⟩
        · rw [(extends_append g _).node_shape_eq hgy_lt, hgy_sh2, hshj]
        · rw [(extends_append g _).node_hardware_eq hgy_lt, hgy_hw2, hhwj]
      · refine ⟨Nat.lt_trans hk2 hs, hmem_path k2 (by rw [hin]; simp), ?_,
          ?_, ?_⟩
        · simp [Graph.num_steps]
        · rw [appended_node_shape, hshk]
        · rw [appended_node_hardware, hhwk]
  | mul =>
    rw [hop] at hk
    simp only [Op.get_gradient_fn, Option.some.injEq] at hk
    subst hk
    simp only [Step.WfAt, hop] at hwfat
    obtain ⟨j, k2, hin, hj, hk2, hshj, hshk, hhwj, hhwk⟩ := hwfat
    have hj0 : j < g0.num_steps := Nat.lt_trans hj hs
    have hk0 : k2 < g0.num_steps := Nat.lt_trans hk2 hs
    have hshk2 : g.node_shape k2 = some st.output.shape := by
      rw [hext.node_shape_eq hk0, hshk]
    have hhwk2 : g.node_hardware k2 = some st.output.hardware := by
      rw [hext.node_hardware_eq hk0, hhwk]
    have hmul1 := node_mul_ok hgy_sh2 hshk2 hgy_hw2 hhwk2
    set g1 : Graph := ⟨g.steps ++ [⟨.mul, [gy, k2],
      .unassigned st.output.shape st.output.hardware⟩]⟩ with hg1def
    have hext1 : Extends g g1 := extends_append g _
    have hg1len : g.num_steps < g1.num_steps := by
      simp [hg1def, Graph.num_steps]
    have hshj1 : g1.node_shape j = some st.output.shape := by
      rw [hext1.node_shape_eq (Nat.lt_of_lt_of_le hj0 hext.1),
        hext.node_shape_eq hj0, hshj]
    have hhwj1 : g1.node_hardware j = some st.output.hardware := by
      rw [hext1.node_hardware_eq (Nat.lt_of_lt_of_le hj0 hext.1),
        hext.node_hardware_eq hj0, hhwj]
    have hgy1sh : g1.node_shape gy = some st.output.shape := by
      rw [hext1.node_shape_eq hgy_lt, hgy_sh2]
    have hgy1hw : g1.node_hardware gy = some st.output.hardware := by
      rw [hext1.node_hardware_eq hgy_lt, hgy_hw2]
    have hmul2 := node_mul_ok hgy1sh hshj1 hgy1hw hhwj1
    set g2 : Graph := ⟨g1.steps ++ [⟨.mul, [gy, j],
      .unassigned st.output.shape st.output.hardware⟩]⟩ with hg2def
    have hext2 : Extends g1 g2 := extends_append g1 _
    refine ⟨g2, [g.num_steps, g1.num_steps], ?_, hext1.trans hext2, ?_⟩
    · simp only [GradFn.perform, hin, List.getElem?_cons_zero,
        List.getElem?_cons_succ, Option.bind_eq_bind, Option.some_bind,
        hmul1, hmul2]
    · intro pq hpq
      rw [hin] at hpq
      simp only [List.zip_cons_cons, List.zip_nil_right, List.mem_cons,
        List.not_mem_nil, or_false] at hpq
      rcases hpq with rfl | rfl
      · refine ⟨hj0, hmem_path j (by rw [hin]; simp),
          Nat.lt_of_lt_of_le hg1len hext2.1, ?_, ?_⟩
        · rw [hext2.node_shape_eq hg1len]
          rw [show g1.node_shape g.num_steps = some st.output.shape from
            appended_node_shape g _ _ _ _, hshj]
        · rw [hext2.node_hardware_eq hg1len]
          rw [show g1.node_hardware g.num_steps = some st.output.hardware from
            appended_node_hardware g _ _ _ _, hhwj]
      · refine ⟨hk0, hmem_path k2 (by rw [hin]; simp), ?_, ?_, ?_⟩
        · simp [hg2def, Graph.num_steps]
        · rw [show g2.node_shape g1.num_steps = some st.output.shape from
            appended_node_shape g1 _ _ _ _, hshk]
        · rw [show g2.node_hardware g1.num_steps = some st.output.hardware
            from appended_node_hardware g1 _ _ _ _, hhwk]
  | div =>
    rw [hop] at hk
    simp only [Op.get_gradient_fn, Option.some.injEq] at hk
    subst hk
    simp only [Step.WfAt, hop] at hwfat
    obtain ⟨j, k2, hin, hj, hk2, hshj, hshk, hhwj, hhwk⟩ := hwfat
    have hj0 : j < g0.num_steps := Nat.lt_trans hj hs
    have hk0 : k2 < g0.num_steps := Nat.lt_trans hk2 hs
    have hshk2 : g.node_shape k2 = some st.output.shape := by
      rw [hext.node_shape_eq hk0, hshk]
    have hhwk2 : g.node_hardware k2 = some st.output.hardware := by
      rw [hext.node_hardware_eq hk0, hhwk]
    have hdiv1 := node_div_ok hgy_sh2 hshk2 hgy_hw2 hhwk2
    set g1 : Graph := ⟨g.steps ++ [⟨.div, [gy, k2],
      .unassigned st.output.shape st.output.hardware⟩]⟩ with hg1def
    have hext1 : Extends g g1 := extends_append g _
    have hg1len : g.num_steps < g1.num_steps := by
      simp [hg1def, Graph.num_steps]
    have hs1 : s < g1.num_steps :=
      Nat.lt_of_lt_of_le hs (hext.trans hext1).1
    have hssh1 : g1.node_shape s = some st.output.shape := by
      rw [(hext.trans hext1).node_shape_eq hs, hs_sh]
    have hshw1 : g1.node_hardware s = some st.output.hardware := by
      rw [(hext.trans hext1).node_hardware_eq hs, hs_hw]
    have hneg2 := node_neg_ok hssh1 hshw1
    set g2 : Graph := ⟨g1.steps ++ [⟨.neg, [s],
      .unassigned st.output.shape st.output.hardware⟩]⟩ with hg2def
    have hext2 : Extends g1 g2 := extends_append g1 _
    have hg2len : g1.num_steps < g2.num_steps := by
      simp [hg2def, Graph.num_steps]
    have ha2sh : g2.node_shape g.num_steps = some st.output.shape := by
      rw [hext2.node_shape_eq hg1len]
      exact appended_node_shape g _ _ _ _
    have ha2hw : g2.node_hardware g.num_steps = some st.output.hardware := by
      rw [hext2.node_hardware_eq hg1len]
      exact appended_node_hardware g _ _ _ _
    have hb2sh : g2.node_shape g1.num_steps = some st.output.shape :=
      appended_node_shape g1 _ _ _ _
    have hb2hw : g2.node_hardware g1.num_steps = some st.output.hardware :=
      appended_node_hardware g1 _ _ _ _
    have hmul3 := node_mul_ok hb2sh ha2sh hb2hw ha2hw
    set g3 : Graph := ⟨g2.steps ++ [⟨.mul, [g1.num_steps, g.num_steps],
      .unassigned st.output.shape st.output.hardware⟩]⟩ with hg3def
    have hext3 : Extends g2 g3 := extends_append g2 _
    have hg3len : g2.num_steps < g3.num_steps := by
      simp [hg3def, Graph.num_steps]
    refine ⟨g3, [g.num_steps, g2.num_steps], ?_,
      (hext1.trans hext2).trans hext3, ?_⟩
    · simp only [GradFn.perform, hin, List.getElem?_cons_zero,
        List.getElem?_cons_succ, Option.bind_eq_bind, Option.some_bind,
        hdiv1, hneg2, hmul3]
    · intro pq hpq
      rw [hin] at hpq
      simp only [List.zip_cons_cons, List.zip_nil_right, List.mem_cons,
        List.not_mem_nil, or_false] at hpq
      rcases hpq with rfl | rfl
      · refine ⟨hj0, hmem_path j (by rw [hin]; simp),
          Nat.lt_of_lt_of_le (Nat.lt_of_lt_of_le hg1len hext2.1) hext3.1,
          ?_, ?_⟩
        · rw [hext3.node_shape_eq (Nat.lt_of_lt_of_le hg1len hext2.1), ha2sh,
            hshj]
        · rw [hext3.node_hardware_eq (Nat.lt_of_lt_of_le hg1len hext2.1),
            ha2hw, hhwj]
      · refine ⟨hk0, hmem_path k2 (by rw [hin]; simp), ?_, ?_, ?_⟩
        · simp [hg3def, Graph.num_steps]
        · rw [show g3.node_shape g2.num_steps = some st.output.shape from
            appended_node_shape g2 _ _ _ _, hshk]
        · rw [show g3.node_hardware g2.num_steps = some st.output.hardware
            from appended_node_hardware g2 _ _ _ _, hhwk]

theorem backprop_spec (g0 : Graph) (y : Nat) (hwf : Graph.Wf g0) :
    ∀ (ids : List Nat) (g : Graph) (slots : List (Option Nat)),
      Extends g0 g →
      slots.length = g0.num_steps →
      SlotsInv g0 y g slots →
      ∃ g2 slots2, g.backprop slots ids = some (g2, slots2) ∧
        Extends g g2 ∧ slots2.length = slots.length ∧
        SlotsInv g0 y g2 slots2 := by
  intro ids
  induction ids with
  | nil =>
    intro g slots _ _ hinv
    exact ⟨g, slots, rfl, extends_refl g, rfl, hinv⟩
  | cons s rest ih =>
    intro g slots hextg hlen hinv
    cases hslot : slots.getD s none with
    | none =>
      obtain ⟨g2, slots2, hrun, hext, hlen2, hinv2⟩ :=
        ih g slots hextg hlen hinv
      refine ⟨g2, slots2, ?_, hext, hlen2, hinv2⟩
      show Graph.backprop g slots (s :: rest) = some (g2, slots2)
      unfold Graph.backprop
      simp only [hslot]
      exact hrun
    | some gy =>
      obtain ⟨hs0, hpath, hgy, hgysh, hgyhw⟩ := hinv s gy hslot
      obtain ⟨st, hst0⟩ : ∃ st, g0.steps[s]? = some st := by
        cases hl : g0.steps[s]? with
        | none =>
          rw [List.getElem?_eq_none_iff] at hl
          exact absurd hs0 (Nat.not_lt_of_le hl)
        | some st2 => exact ⟨st2, rfl⟩
      have hget : g.get_step s = some st := by
        show g.steps[s]? = some st
        rw [hextg.2 s hs0]
        exact hst0
      cases hgf : st.operator.get_gradient_fn with
      | none =>
        obtain ⟨g2, slots2, hrun, hext, hlen2, hinv2⟩ :=
          ih g slots hextg hlen hinv
        refine ⟨g2, slots2, ?_, hext, hlen2, hinv2⟩
        show Graph.backprop g slots (s :: rest) = some (g2, slots2)
        unfold Graph.backprop
        simp only [hslot, hget, hgf]
        exact hrun
      | some k =>
        obtain ⟨g1, gxs, hperf, hext1, hpairs⟩ :=
          grad_perform_spec hst0 (hwf s st hst0) hgf hpath hextg hgy
            hgysh hgyhw
        obtain ⟨g2, slots2, hint, hext2, hlen2, hinv2⟩ :=
          integrate_spec g0 y (st.inputs.zip gxs) g1 slots hlen
            (slotsinv_mono hext1 hinv) hpairs
        obtain ⟨g3, slots3, hrun, hext3, hlen3, hinv3⟩ :=
          ih g2 slots2 (hextg.trans (hext1.trans hext2))
            (by rw [hlen2]; exact hlen) hinv2
        refine ⟨g3, slots3, ?_, (hext1.trans hext2).trans hext3,
          by rw [hlen3, hlen2], hinv3⟩
        show Graph.backprop g slots (s :: rest) = some (g3, slots3)
        unfold Graph.backprop
        simp only [hslot, hget, hgf, hperf, hint, Option.bind_eq_bind,
          Option.some_bind]
        exact hrun

theorem collect_spec (g0 : Graph) :
    ∀ (xs : List Nat) (g : Graph) (slots : List (Option Nat)),
      Extends g0 g →
      (∀ x ∈ xs, x < g0.num_steps) →
      ∃ g2 outs, Graph.collect g slots xs = some (g2, outs) ∧
        Extends g g2 ∧ outs.length = xs.length ∧
        ∀ (i x : Nat), xs[i]? = some x → slots.getD x none = none →
          ∃ n shx hwx, outs[i]? = some n ∧ g0.num_steps ≤ n ∧
            g0.node_shape x = some shx ∧
            g0.node_hardware x = some hwx ∧
            g2.steps[n]? =
              some ⟨.fill hwx shx 0, [], .unassigned shx hwx⟩ := by
  intro xs
  induction xs with
  | nil =>
    intro g slots _ _
    refine ⟨g, [], rfl, extends_refl g, rfl, ?_⟩
    intro i x hxi
    simp at hxi
  | cons x rest ih =>
    intro g slots hextg hxs
    have hx0 : x < g0.num_steps := hxs x (List.mem_cons_self _ _)
    cases hslot : slots.getD x none with
    | some m =>
      obtain ⟨g2, outs, hrun, hext, hlen, hprop⟩ :=
        ih g slots hextg (fun z hz => hxs z (List.mem_cons_of_mem _ hz))
      refine ⟨g2, m :: outs, ?_, hext, by simp [hlen], ?_⟩
      · show Graph.collect g slots (x :: rest) = some (g2, m :: outs)
        unfold Graph.collect
        simp only [hslot, hrun, Option.bind_eq_bind, Option.some_bind]
      · intro i z hzi hzslot
        cases i with
        | zero =>
          simp only [List.getElem?_cons_zero, Option.some.injEq] at hzi
          subst hzi
          rw [hslot] at hzslot
          exact Option.noConfusion hzslot
        | succ j =>
          simp only [List.getElem?_cons_succ] at hzi ⊢
          exact hprop j z hzi hzslot
    | none =>
      obtain ⟨shx, hshx⟩ := node_shape_of_lt hx0
      obtain ⟨hwx, hhwx⟩ := node_hardware_of_lt hx0
      have hgsh : g.node_shape x = some shx := by
        rw [hextg.node_shape_eq hx0, hshx]
      have hghw : g.node_hardware x = some hwx := by
        rw [hextg.node_hardware_eq hx0, hhwx]
      have hfill := node_fill_ok g hwx shx 0
      have hextf : Extends g
          ⟨g.steps ++ [⟨.fill hwx shx 0, [], .unassigned shx hwx⟩]⟩ :=
        extends_append g _
      obtain ⟨g2, outs, hrun, hext, hlen, hprop⟩ :=
        ih ⟨g.steps ++ [⟨.fill hwx shx 0, [], .unassigned shx hwx⟩]⟩ slots
          (hextg.trans hextf) (fun z hz => hxs z (List.mem_cons_of_mem _ hz))
      refine ⟨g2, g.num_steps :: outs, ?_, hextf.trans hext,
        by simp [hlen], ?_⟩
      · show Graph.collect g slots (x :: rest) = some (g2, g.num_steps :: outs)
        unfold Graph.collect
        simp only [hslot, hgsh, hghw, hfill, Option.bind_eq_bind,
          Option.some_bind, hrun]
      · intro i z hzi hzslot
        cases i with
        | zero =>
          simp only [List.getElem?_cons_zero, Option.some.injEq] at hzi
          subst hzi
          have hstep1 : (Graph.mk (g.steps ++
              [⟨.fill hwx shx 0, [],
                .unassigned shx hwx⟩])).steps[g.num_steps]? =
              some ⟨.fill hwx shx 0, [], .unassigned shx hwx⟩ := by
            show (g.steps ++ [_])[g.steps.length]? = _
            rw [List.getElem?_concat_length]
          refine ⟨g.num_steps, shx, hwx, by simp, hextg.1, hshx, hhwx, ?_⟩
          have hlt : g.num_steps < (Graph.mk (g.steps ++
              [⟨.fill hwx shx 0, [], .unassigned shx hwx⟩])).num_steps := by
            simp [Graph.num_steps]
          rw [hext.2 g.num_steps hlt, hstep1]
        | succ j =>
          simp only [List.getElem?_cons_succ] at hzi ⊢
          exact hprop j z hzi hzslot

/-- A Boolean check of the add_step shape discipline, used to discharge
Graph.Wf on concrete graphs by evaluation. -/
def Step.wf_check (g : Graph) (i : Nat) (st : Step) : Bool :=
  match st.operator with
  | .constant _ => st.inputs.isEmpty
  | .fill _ _ _ => st.inputs.isEmpty
  | .neg =>
    match st.inputs with
    | [j] => decide (j < i) &&
        decide (g.node_shape j = some st.output.shape) &&
        decide (g.node_hardware j = some st.output.hardware)
    | _ => false
  | _ =>
    match st.inputs with
    | [j, k] => decide (j < i) && decide (k < i) &&
        decide (g.node_shape j = some st.output.shape) &&
        decide (g.node_shape k = some st.output.shape) &&
        decide (g.node_hardware j = some st.output.hardware) &&
        decide (g.node_hardware k = some st.output.hardware)
    | _ => false

theorem wf_check_sound (g : Graph) (i : Nat) (st : Step)
    (h : Step.wf_check g i st = true) : Step.WfAt g i st := by
  cases hop : st.operator with
  | constant v =>
    simp only [Step.wf_check, hop] at h
    simp only [Step.WfAt, hop]
    cases hin : st.inputs with
    | nil => rfl
    | cons a tl => simp [hin] at h
  | fill a b c =>
    simp only [Step.wf_check, hop] at h
    simp only [Step.WfAt, hop]
    cases hin : st.inputs with
    | nil => rfl
    | cons a tl => simp [hin] at h
  | neg =>
    simp only [Step.wf_check, hop] at h
    simp only [Step.WfAt, hop]
    cases hin : st.inputs with
    | nil => simp [hin] at h
    | cons j tl =>
      cases tl with
      | nil =>
        simp only [hin, Bool.and_eq_true, decide_eq_true_eq] at h
        exact ⟨j, rfl, h.1.1, h.1.2, h.2⟩
      | cons b tl2 => simp [hin] at h
  | add =>
    simp only [Step.wf_check, hop] at h
    simp only [Step.WfAt, hop]
    cases hin : st.inputs with
    | nil => simp [hin] at h
    | cons j tl =>
      cases tl with
      | nil => simp [hin] at h
      | cons k tl2 =>
        cases tl2 with
        | nil =>
          simp only [hin, Bool.and_eq_true, decide_eq_true_eq] at h
          exact ⟨j, k, rfl, h.1.1.1.1.1, h.1.1.1.1.2, h.1.1.1.2,
            h.1.1.2, h.1.2, h.2⟩
        | cons c tl3 => simp [hin] at h
  | sub =>
    simp only [Step.wf_check, hop] at h
    simp only [Step.WfAt, hop]
    cases hin : st.inputs with
    | nil => simp [hin] at h
    | cons j tl =>
      cases tl with
      | nil => simp [hin] at h
      | cons k tl2 =>
        cases tl2 with
        | nil =>
          simp only [hin, Bool.and_eq_true, decide_eq_true_eq] at h
          exact ⟨j, k, rfl, h.1.1.1.1.1, h.1.1.1.1.2, h.1.1.1.2,
            h.1.1.2, h.1.2, h.2⟩
        | cons c tl3 => simp [hin] at h
  | mul =>
    simp only [Step.wf_check, hop] at h
    simp only [Step.WfAt, hop]
    cases hin : st.inputs with
    | nil => simp [hin] at h
    | cons j tl =>
      cases tl with
      | nil => simp [hin] at h
      | cons k tl2 =>
        cases tl2 with
        | nil =>
          simp only [hin, Bool.and_eq_true, decide_eq_true_eq] at h
          exact ⟨j, k, rfl, h.1.1.1.1.1, h.1.1.1.1.2, h.1.1.1.2,
            h.1.1.2, h.1.2, h.2⟩
        | cons c tl3 => simp [hin] at h
  | div =>
    simp only [Step.wf_check, hop] at h
    simp only [Step.WfAt, hop]
    cases hin : st.inputs with
    | nil => simp [hin] at h
    | cons j tl =>
      cases tl with
      | nil => simp [hin] at h
      | cons k tl2 =>
        cases tl2 with
        | nil =>
          simp only [hin, Bool.and_eq_true, decide_eq_true_eq] at h
          exact ⟨j, k, rfl, h.1.1.1.1.1, h.1.1.1.1.2, h.1.1.1.2,
            h.1.1.2, h.1.2, h.2⟩
        | cons c tl3 => simp [hin] at h

theorem wf2_of_all (g : Graph)
    (h : (List.range g.num_steps).all (fun i =>
      match g.steps[i]? with
      | some st => Step.wf_check g i st
      | none => true) = true) : Graph.Wf g := by
  intro i st hst
  have hi : i < g.num_steps := (List.getElem?_eq_some.mp hst).1
  have h2 := List.all_eq_true.mp h i (List.mem_range.mpr hi)
  simp only [hst] at h2
  exact wf_check_sound g i st h2

/-- C3: the contract of grad (src/node.rs, on the spec section 4.6 graph
container) for y and xs on one graph with the add_step shape discipline:
empty xs returns the empty vector with the graph untouched; otherwise grad
succeeds with exactly one output node per element of xs, the backward pass
is seeded with a fresh one-filled Fill step of the shape and hardware of y
appended at the old end of the graph, and every requested node that no
gradient path from y reaches receives a freshly appended zero-filled Fill
node of its own shape and hardware. -/
theorem c3_grad_contract (g : Graph) (y : Nat) (xs : List Nat)
    (hwf : Graph.Wf g) (hy : y < g.num_steps)
    (hxs : ∀ x ∈ xs, x < g.num_steps) :
    (xs = [] → g.grad_core y xs = some (g, [])) ∧
    (xs ≠ [] →
      ∃ g2 outs ysh yhw,
        g.grad_core y xs = some (g2, outs) ∧
        outs.length = xs.length ∧
        g.node_shape y = some ysh ∧
        g.node_hardware y = some yhw ∧
        g2.steps[g.num_steps]? =
          some ⟨.fill yhw ysh 1, [], .unassigned ysh yhw⟩ ∧
        ∀ (i x : Nat), xs[i]? = some x → ¬ GradPath g y x →
          ∃ n shx hwx, outs[i]? = some n ∧ g.num_steps ≤ n ∧
            g.node_shape x = some shx ∧
            g.node_hardware x = some hwx ∧
            g2.steps[n]? =
              some ⟨.fill hwx shx 0, [], .unassigned shx hwx⟩) := by
  constructor
  · intro h
    subst h
    rfl
  · intro hne
    cases xs with
    | nil => exact absurd rfl hne
    | cons x0 rest =>
      obtain ⟨ysh, hysh⟩ := node_shape_of_lt hy
      obtain ⟨yhw, hyhw⟩ := node_hardware_of_lt hy
      have hfill := node_fill_ok g yhw ysh 1
      have hext1 : Extends g
          ⟨g.steps ++ [⟨.fill yhw ysh 1, [], .unassigned ysh yhw⟩]⟩ :=
        extends_append g _
      have hlen1 : ((List.replicate g.num_steps (none : Option Nat)).set y
          (some g.num_steps)).length = g.num_steps := by
        simp
      have hinv1 : SlotsInv g y
          ⟨g.steps ++ [⟨.fill yhw ysh 1, [], .unassigned ysh yhw⟩]⟩
          ((List.replicate g.num_steps (none : Option Nat)).set y
            (some g.num_steps)) := by
        intro s n hs
        by_cases hsy : s = y
        · subst hsy
          rw [getD_set_self _ (by simpa using hy)] at hs
          cases hs
          refine ⟨hy, GradPath.refl, ?_, ?_, ?_⟩
          · show g.num_steps < (Graph.mk (g.steps ++
              [⟨.fill yhw ysh 1, [], .unassigned ysh yhw⟩])).num_steps
            simp [Graph.num_steps]
          · rw [appended_node_shape, hysh]
          · rw [appended_node_hardware, hyhw]
        · rw [getD_set_ne _ _ _ _ hsy, getD_replicate] at hs
          exact Option.noConfusion hs
      obtain ⟨g2, slots2, hbp, hext12, hlen2, hinv2⟩ :=
        backprop_spec g y hwf
          ((List.range' (rest.foldl Nat.min x0 + 1)
            (y - rest.foldl Nat.min x0)).reverse)
          ⟨g.steps ++ [⟨.fill yhw ysh 1, [], .unassigned ysh yhw⟩]⟩
          ((List.replicate g.num_steps (none : Option Nat)).set y
            (some g.num_steps))
          hext1 hlen1 hinv1
      obtain ⟨g3, outs, hcol, hext23, hlenouts, hprop⟩ :=
        collect_spec g (x0 :: rest) g2 slots2 (hext1.trans hext12) hxs
      refine ⟨g3, outs, ysh, yhw, ?_, by rw [hlenouts], hysh, hyhw, ?_, ?_⟩
      · show Graph.grad_core g y (x0 :: rest) = some (g3, outs)
        unfold Graph.grad_core
        simp only [hysh, hyhw, hfill, Option.bind_eq_bind, Option.some_bind,
          hbp, hcol]
      · have h1 : (Graph.mk (g.steps ++
            [⟨.fill yhw ysh 1, [],
              .unassigned ysh yhw⟩])).steps[g.num_steps]? =
            some ⟨.fill yhw ysh 1, [], .unassigned ysh yhw⟩ := by
          show (g.steps ++ [_])[g.steps.length]? = _
          rw [List.getElem?_concat_length]
        have hlt : g.num_steps < (Graph.mk (g.steps ++
            [⟨.fill yhw ysh 1, [], .unassigned ysh yhw⟩])).num_steps := by
          simp [Graph.num_steps]
        rw [(hext12.trans hext23).2 g.num_steps hlt, h1]
      · intro i x hxi hnopath
        have hslot2 : slots2.getD x none = none := by
          cases hs : slots2.getD x none with
          | none => rfl
          | some n => exact absurd (hinv2 x n hs).2.1 hnopath
        exact hprop i x hxi hslot2

/-- The C3 witness graph: two scalar constants and the negation of the
second; node 0 is unreachable by any gradient path from node 2. -/
def c3_g : Graph :=
  ⟨[⟨.constant (Arr.scalar_f32 0 2), [], .unassigned ⟨[]⟩ 0⟩,
    ⟨.constant (Arr.scalar_f32 0 3), [], .unassigned ⟨[]⟩ 0⟩,
    ⟨.neg, [1], .unassigned ⟨[]⟩ 0⟩]⟩

/-- C3 witness: the grad contract at the concrete graph c3_g with y = 2 and
xs = [0]. -/
theorem c3_witness :
    (([0] : List Nat) = [] → Graph.grad_core c3_g 2 [0] = some (c3_g, [])) ∧
    (([0] : List Nat) ≠ [] →
      ∃ g2 outs ysh yhw,
        Graph.grad_core c3_g 2 [0] = some (g2, outs) ∧
        outs.length = ([0] : List Nat).length ∧
        c3_g.node_shape 2 = some ysh ∧
        c3_g.node_hardware 2 = some yhw ∧
        g2.steps[c3_g.num_steps]? =
          some ⟨.fill yhw ysh 1, [], .unassigned ysh yhw⟩ ∧
        ∀ (i x : Nat), ([0] : List Nat)[i]? = some x →
          ¬ GradPath c3_g 2 x →
          ∃ n shx hwx, outs[i]? = some n ∧ c3_g.num_steps ≤ n ∧
            c3_g.node_shape x = some shx ∧
            c3_g.node_hardware x = some hwx ∧
            g2.steps[n]? =
              some ⟨.fill hwx shx 0, [], .unassigned shx hwx⟩) :=
  c3_grad_contract c3_g 2 [0]
    (wf2_of_all c3_g (by decide))
    (by decide)
    (by decide)
